import Mathlib

/-!
Verification of the utm-toolkit core: key-format conversion (src/core/keys.ts),
URL parameter injection (src/core/appender.ts), capture (src/core/capture.ts)
and session storage (src/core/storage.ts).

Modelling conventions.  Strings are modelled as `List Char`.  JavaScript string
operations are modelled at the code-point level: the ASCII-range behaviour of
`toLowerCase` / `toUpperCase` / `encodeURIComponent` / `URLSearchParams` is
reproduced exactly; multi-byte UTF-8 percent-encoding of characters above
U+007F is not modelled (characters above U+007F pass through the codecs
unchanged).  All claims and counterexamples below use ASCII data only.
-/

namespace Utm

/-- ASCII uppercase letter test, the `[A-Z]` character class of the source's
regular expressions. -/
def isUpperAlpha (c : Char) : Bool := 'A' ≤ c && c ≤ 'Z'

/-- ASCII lowercase letter test, the `[a-z]` character class. -/
def isLowerAlpha (c : Char) : Bool := 'a' ≤ c && c ≤ 'z'

/-- ASCII digit test. -/
def isDigitC (c : Char) : Bool := '0' ≤ c && c ≤ '9'

/-- ASCII lowercasing of a single character (JS `toLowerCase`, ASCII range). -/
def lowerC (c : Char) : Char := if isUpperAlpha c then Char.ofNat (c.toNat + 32) else c

/-- ASCII uppercasing of a single character (JS `toUpperCase`, ASCII range). -/
def upperC (c : Char) : Char := if isLowerAlpha c then Char.ofNat (c.toNat - 32) else c

/-- The double-quote character, kept as a named constant. -/
def quoteC : Char := Char.ofNat 34

/-- The apostrophe character. -/
def aposC : Char := Char.ofNat 39

/-- The backslash character. -/
def backslashC : Char := Char.ofNat 92

/-- The backtick character. -/
def backtickC : Char := Char.ofNat 96

/-- The opening curly brace character. -/
def lbraceC : Char := Char.ofNat 123

/-- The closing curly brace character. -/
def rbraceC : Char := Char.ofNat 125

/-- Boolean prefix test on character lists (JS `String.prototype.startsWith`). -/
def isPrefixL : List Char → List Char → Bool
  | [], _ => true
  | _ :: _, [] => false
  | a :: p, b :: s => a = b && isPrefixL p s

/-- First-match lookup in an association list keyed by strings. -/
def lookupL (k : List Char) : List (List Char × List Char) → Option (List Char)
  | [] => none
  | e :: r => if e.1 = k then some e.2 else lookupL k r

end Utm

namespace Utm

/-! ### Key conversion (src/core/keys.ts) -/

/-- `CAMEL_TO_SNAKE`: the table of standard camelCase keys. -/
def CAMEL_TO_SNAKE : List (List Char × List Char) :=
  [(("utmSource").data, ("utm_source").data),
   (("utmMedium").data, ("utm_medium").data),
   (("utmCampaign").data, ("utm_campaign").data),
   (("utmTerm").data, ("utm_term").data),
   (("utmContent").data, ("utm_content").data),
   (("utmId").data, ("utm_id").data)]

/-- `SNAKE_TO_CAMEL`: the table of standard snake_case keys. -/
def SNAKE_TO_CAMEL : List (List Char × List Char) :=
  [(("utm_source").data, ("utmSource").data),
   (("utm_medium").data, ("utmMedium").data),
   (("utm_campaign").data, ("utmCampaign").data),
   (("utm_term").data, ("utmTerm").data),
   (("utm_content").data, ("utmContent").data),
   (("utm_id").data, ("utmId").data)]

/-- `rest.replace(/([A-Z])/g, _dollar1-prefixed-by-underscore)`: inserts an
underscore before every ASCII uppercase letter. -/
def expandUpper : List Char → List Char
  | [] => []
  | c :: r => if isUpperAlpha c then '_' :: c :: expandUpper r else c :: expandUpper r

/-- `rest.replace(/_([a-z])/g, uppercased-capture)`: a left-to-right
non-overlapping scan replacing an underscore followed by an ASCII lowercase
letter with that letter uppercased. -/
def camelize : List Char → List Char
  | [] => []
  | '_' :: c :: r =>
    if isLowerAlpha c then upperC c :: camelize r else '_' :: camelize (c :: r)
  | c :: r => c :: camelize r

/-- `camelRest.charAt(0).toUpperCase() + camelRest.slice(1)`. -/
def upperFirst : List Char → List Char
  | [] => []
  | c :: r => upperC c :: r

/-- `toSnakeCase` from src/core/keys.ts: standard-table lookup first, then the
regex transform for `utm`-prefixed keys longer than 3, otherwise identity. -/
def toSnakeCase (k : List Char) : List Char :=
  match lookupL k CAMEL_TO_SNAKE with
  | some v => v
  | none =>
    if isPrefixL (("utm").data) k && decide (3 < k.length) then
      ("utm").data ++ (expandUpper (k.drop 3)).map lowerC
    else k

/-- `toCamelCase` from src/core/keys.ts: standard-table lookup first, then the
regex transform for `utm_`-prefixed keys longer than 4, otherwise identity. -/
def toCamelCase (k : List Char) : List Char :=
  match lookupL k SNAKE_TO_CAMEL with
  | some v => v
  | none =>
    if isPrefixL (("utm_").data) k && decide (4 < k.length) then
      ("utm").data ++ upperFirst (camelize (k.drop 4))
    else k

/-- `isSnakeCaseUtmKey`: starts with `utm_`. -/
def isSnakeCaseUtmKey (k : List Char) : Bool := isPrefixL (("utm_").data) k

/-- `isCamelCaseUtmKey`: starts with `utm` followed by an ASCII uppercase
letter. -/
def isCamelCaseUtmKey (k : List Char) : Bool :=
  match k with
  | 'u' :: 't' :: 'm' :: c :: _ => isUpperAlpha c
  | _ => false

/-- `isUtmKey`: either convention. -/
def isUtmKey (k : List Char) : Bool := isSnakeCaseUtmKey k || isCamelCaseUtmKey k

/-- Key formats of the library (`KeyFormat` in src/types). -/
inductive KeyFormat where
  | snake_case
  | camelCase
deriving DecidableEq

/-- A JS object with string keys and `string | undefined` values, in property
insertion order with unique keys. -/
abbrev ParamsO := List (List Char × Option (List Char))

/-- JS object property assignment `o[k] = v`: updates the value in place if the
key exists (keeping its position), otherwise appends. -/
def objInsert (l : List (List Char × α)) (k : List Char) (v : α) : List (List Char × α) :=
  if l.any (fun e => e.1 = k) then l.map (fun e => if e.1 = k then (k, v) else e)
  else l ++ [(k, v)]

/-- The single-key converter selected by `convertParams`. -/
def convertKey (targetFormat : KeyFormat) : List Char → List Char :=
  match targetFormat with
  | .snake_case => toSnakeCase
  | .camelCase => toCamelCase

/-- One step of the `convertParams` loop: skip undefined values, otherwise
assign under the converted key. -/
def convertStep (targetFormat : KeyFormat) (acc : ParamsO)
    (e : List Char × Option (List Char)) : ParamsO :=
  match e.2 with
  | none => acc
  | some v => objInsert acc (convertKey targetFormat e.1) (some v)

/-- `convertParams` from src/core/keys.ts: converts every key with the
format's single-key converter, dropping entries whose value is undefined. -/
def convertParams (p : ParamsO) (targetFormat : KeyFormat) : ParamsO :=
  p.foldl (convertStep targetFormat) []

/-- `toSnakeCaseParams`. -/
def toSnakeCaseParams (p : ParamsO) : ParamsO := convertParams p .snake_case

/-- `isValidUtmParameters` with no explicit format, restricted to values that
are already objects of `string | undefined` (the only inputs the claims
quantify over): every key must satisfy `isUtmKey`. -/
def isValidUtmParameters (p : ParamsO) : Bool := p.all (fun e => isUtmKey e.1)

end Utm

namespace Utm

/-! ### URLSearchParams and percent-codecs (WHATWG application/x-www-form-urlencoded) -/

/-- A live `URLSearchParams` list: name/value pairs in order. -/
abbrev Pairs := List (List Char × List Char)

/-- Split a character list at every occurrence of `c`, keeping empty pieces. -/
def splitOnC (c : Char) : List Char → List (List Char)
  | [] => [[]]
  | x :: xs =>
    if x = c then [] :: splitOnC c xs
    else
      match splitOnC c xs with
      | [] => [[x]]
      | h :: t => (x :: h) :: t

/-- Split at the first occurrence of `c`: the part before it, and the part
after it (`none` when `c` does not occur). -/
def splitFirstC (c : Char) : List Char → List Char × Option (List Char)
  | [] => ([], none)
  | x :: xs =>
    if x = c then ([], some xs)
    else
      match splitFirstC c xs with
      | (a, r) => (x :: a, r)

/-- Join pieces with the separator `c` (inverse of `splitOnC`). -/
def intercalateC (c : Char) : List (List Char) → List Char
  | [] => []
  | [s] => s
  | s :: r => s ++ c :: intercalateC c r

/-- Hex digit test (either case), as used by percent-decoding. -/
def isHexDigit (c : Char) : Bool :=
  isDigitC c || ('A' ≤ c && c ≤ 'F') || ('a' ≤ c && c ≤ 'f')

/-- Numeric value of a hex digit. -/
def hexVal (c : Char) : Nat :=
  if isDigitC c then c.toNat - 48
  else if 'A' ≤ c && c ≤ 'F' then c.toNat - 55
  else if 'a' ≤ c && c ≤ 'f' then c.toNat - 87
  else 0

/-- Uppercase hex digit of a value below 16 (the form emitted by
`encodeURIComponent` and the urlencoded serializer). -/
def toHexDigit (m : Nat) : Char :=
  match m with
  | 0 => '0' | 1 => '1' | 2 => '2' | 3 => '3' | 4 => '4'
  | 5 => '5' | 6 => '6' | 7 => '7' | 8 => '8' | 9 => '9'
  | 10 => 'A' | 11 => 'B' | 12 => 'C' | 13 => 'D' | 14 => 'E' | _ => 'F'

/-- Lowercase hex digit (the form `JSON.stringify` emits in control escapes). -/
def toHexDigitLower (m : Nat) : Char :=
  match m with
  | 0 => '0' | 1 => '1' | 2 => '2' | 3 => '3' | 4 => '4'
  | 5 => '5' | 6 => '6' | 7 => '7' | 8 => '8' | 9 => '9'
  | 10 => 'a' | 11 => 'b' | 12 => 'c' | 13 => 'd' | 14 => 'e' | _ => 'f'

/-- WHATWG percent-decoding: a `%` followed by two hex digits becomes the coded
byte; invalid sequences pass through unchanged. -/
def percentDecode : List Char → List Char
  | [] => []
  | '%' :: h1 :: h2 :: r2 =>
    if isHexDigit h1 && isHexDigit h2 then
      Char.ofNat (16 * hexVal h1 + hexVal h2) :: percentDecode r2
    else '%' :: percentDecode (h1 :: h2 :: r2)
  | c :: rest => c :: percentDecode rest

/-- The `+`-to-space replacement done by the urlencoded parser. -/
def plusToSpace (l : List Char) : List Char := l.map (fun c => if c = '+' then ' ' else c)

/-- Decoding of one urlencoded name or value. -/
def decodeComponentW (l : List Char) : List Char := percentDecode (plusToSpace l)

/-- Parse one nonempty `name=value` (or bare `name`) segment. -/
def parsePair (seg : List Char) : List Char × List Char :=
  match splitFirstC '=' seg with
  | (n, none) => (decodeComponentW n, [])
  | (n, some v) => (decodeComponentW n, decodeComponentW v)

/-- The `URLSearchParams(init)` parser: split on `&`, skip empty segments,
split each segment at its first `=`, decode both halves. -/
def parsePairs (q : List Char) : Pairs :=
  ((splitOnC '&' q).filter (fun s => s ≠ [])).map parsePair

/-- The characters the urlencoded serializer keeps verbatim. -/
def formKeepB (c : Char) : Bool :=
  isUpperAlpha c || isLowerAlpha c || isDigitC c || c = '*' || c = '-' || c = '.' || c = '_'

/-- One character of the urlencoded serializer: space becomes `+`;
alphanumerics and `*-._` are kept; other ASCII is percent-encoded. -/
def formEncodeChar (c : Char) : List Char :=
  if c = ' ' then ['+']
  else if formKeepB c then [c]
  else if c.toNat < 128 then ['%', toHexDigit (c.toNat / 16), toHexDigit (c.toNat % 16)]
  else [c]

/-- urlencoded serialization of a name or value. -/
def formEncode (l : List Char) : List Char := (l.map formEncodeChar).flatten

/-- `URLSearchParams.toString()`: always emits `=`, even for empty values. -/
def serializePairs (ps : Pairs) : List Char :=
  intercalateC '&' (ps.map (fun e => formEncode e.1 ++ '=' :: formEncode e.2))

/-- The characters `encodeURIComponent` keeps verbatim. -/
def encKeepB (c : Char) : Bool :=
  isUpperAlpha c || isLowerAlpha c || isDigitC c
    || c = '-' || c = '_' || c = '.' || c = '!' || c = '~'
    || c = '*' || c = aposC || c = '(' || c = ')'

/-- One character of `encodeURIComponent`: keeps alphanumerics and
`-_.!~*'()`, percent-encodes other ASCII. -/
def encChar (c : Char) : List Char :=
  if encKeepB c then [c]
  else if c.toNat < 128 then ['%', toHexDigit (c.toNat / 16), toHexDigit (c.toNat % 16)]
  else [c]

/-- `encodeURIComponent`. -/
def encodeURIComponent (l : List Char) : List Char := (l.map encChar).flatten

/-- `URLSearchParams.delete(k)`: removes every pair named `k`. -/
def deletePairs (k : List Char) (ps : Pairs) : Pairs := ps.filter (fun e => e.1 ≠ k)

/-- `URLSearchParams.has(k)`. -/
def hasPair (k : List Char) (ps : Pairs) : Bool := ps.any (fun e => e.1 = k)

/-- `URLSearchParams.set(k, v)`: overwrite the first pair named `k` and drop
the others, else append. -/
def setPair (k v : List Char) : Pairs → Pairs
  | [] => [(k, v)]
  | e :: r => if e.1 = k then (k, v) :: deletePairs k r else e :: setPair k v r

/-- Delete each key of `ks` in turn. -/
def deleteKeys (ks : List (List Char)) (ps : Pairs) : Pairs :=
  ks.foldl (fun acc k => deletePairs k acc) ps

end Utm

namespace Utm

/-! ### URL model and the appender (src/core/appender.ts)

A URL is modelled in parsed form; `parseUrl` accepts http(s) URLs that the
WHATWG parser would return unchanged (lowercase scheme, plain host, no
dot-segments, components in their serialized character ranges) and rejects
everything else, modelling `new URL(url)` failure or normalization as parse
failure.  An absent query or fragment is conflated with an empty one, as both
serialize identically for the URLs the appender builds. -/

structure Url where
  scheme : List Char
  userinfo : Option (List Char)
  host : List Char
  path : List Char
  query : List Char
  fragment : List Char
deriving DecidableEq

/-- Characters accepted in a userinfo component. -/
def userinfoOkC (c : Char) : Bool :=
  isUpperAlpha c || isLowerAlpha c || isDigitC c || c = '-' || c = '.' || c = '_' || c = ':'

/-- Characters accepted in a host. -/
def hostOkC (c : Char) : Bool :=
  isLowerAlpha c || isDigitC c || c = '-' || c = '.'

/-- Characters accepted in a path. -/
def pathOkC (c : Char) : Bool :=
  isUpperAlpha c || isLowerAlpha c || isDigitC c || c = '/' || c = '-' || c = '.'
    || c = '_' || c = '~'

/-- Characters the WHATWG parser leaves unchanged in a query: printable ASCII
other than `#` and the query-encode set. -/
def queryOkC (c : Char) : Bool :=
  decide (33 ≤ c.toNat) && decide (c.toNat ≤ 126) && c ≠ '#' && c ≠ quoteC
    && c ≠ '<' && c ≠ '>' && c ≠ aposC

/-- Characters the WHATWG parser leaves unchanged in a fragment. -/
def fragOkC (c : Char) : Bool :=
  decide (33 ≤ c.toNat) && decide (c.toNat ≤ 126) && c ≠ quoteC
    && c ≠ '<' && c ≠ '>' && c ≠ backtickC

/-- Reject paths with a `.` right after a `/` (dot-segments would be
normalized by the WHATWG parser). -/
def noDotSeg : List Char → Bool
  | '/' :: '.' :: _ => false
  | _ :: r => noDotSeg r
  | [] => true

/-- Scheme recognition: the accepted canonical prefixes. -/
def schemeSplit (bq : List Char) : Option (List Char × List Char) :=
  if isPrefixL (("https://").data) bq then some ((("https").data), bq.drop 8)
  else if isPrefixL (("http://").data) bq then some ((("http").data), bq.drop 7)
  else none

/-- Component well-formedness checks applied by `parseUrl`. -/
def urlChecksOk (ui : Option (List Char)) (host path query frag : List Char) : Bool :=
  host ≠ [] && host.all hostOkC
    && (match ui with
        | none => true
        | some u => u ≠ [] && u.all userinfoOkC)
    && path.all pathOkC && noDotSeg path
    && query.all queryOkC && frag.all fragOkC

/-- Split an authority at its userinfo delimiter. -/
def splitUserinfo (auth : List Char) : Option (List Char) × List Char :=
  match splitFirstC '@' auth with
  | (a, none) => (none, a)
  | (a, some h) => (some a, h)

/-- Decompose the part after `scheme://` into userinfo, host and path. -/
def parseAuthPath (rest : List Char) : Option (List Char) × List Char × List Char :=
  match splitFirstC '/' rest with
  | (auth, none) => ((splitUserinfo auth).1, (splitUserinfo auth).2, ['/'])
  | (auth, some p) => ((splitUserinfo auth).1, (splitUserinfo auth).2, '/' :: p)

/-- `new URL(url)` for already-canonical http(s) URLs; `none` models both a
parse failure and any input the WHATWG parser would normalize. -/
def parseUrl (s : List Char) : Option Url :=
  match splitFirstC '#' s with
  | (bh, fragO) =>
    match splitFirstC '?' bh with
    | (bq, queryO) =>
      match schemeSplit bq with
      | none => none
      | some (scheme, rest) =>
        match parseAuthPath rest with
        | (ui, host, path) =>
          if urlChecksOk ui host path (queryO.getD []) (fragO.getD []) then
            some ⟨scheme, ui, host, path, queryO.getD [], fragO.getD []⟩
          else none

/-- Render a query component: empty means absent (no `?`). -/
def optQ (q : List Char) : List Char := if q = [] then [] else '?' :: q

/-- Render a fragment component: empty means absent (no `#`). -/
def optF (f : List Char) : List Char := if f = [] then [] else '#' :: f

/-- Render an optional userinfo component. -/
def optUi : Option (List Char) → List Char
  | none => []
  | some ui => ui ++ ['@']

/-- `URL.toString()` for the model. -/
def serializeUrl (u : Url) : List Char :=
  u.scheme ++ ("://").data ++ optUi u.userinfo ++ u.host ++ u.path
    ++ optQ u.query ++ optF u.fragment

end Utm

namespace Utm

/-! ### The appender (src/core/appender.ts) -/

/-- `isAnyUtmKey` (local helper in appender.ts). -/
def isAnyUtmKey (k : List Char) : Bool := isSnakeCaseUtmKey k || isCamelCaseUtmKey k

/-- `hasValidUtmEntries`: some entry has a UTM key and a defined, non-empty
value. -/
def hasValidUtmEntries (p : ParamsO) : Bool :=
  p.any (fun e =>
    isAnyUtmKey e.1 &&
      (match e.2 with
       | some v => v ≠ []
       | none => false))

/-- `buildQueryString` from appender.ts: `encodeURIComponent` on both halves,
with empty values rendered as a bare key without `=`. -/
def buildQueryString (ps : Pairs) : List Char :=
  intercalateC '&'
    (ps.map (fun e =>
      if e.2 = [] then encodeURIComponent e.1
      else encodeURIComponent e.1 ++ '=' :: encodeURIComponent e.2))

/-- One entry of the per-key loop shared by `appendToQuery` and
`appendToFragment`: skip undefined values; with `preserveExisting`, skip keys
already present; otherwise delete then set. -/
def applyStep (preserveExisting : Bool) (acc : Pairs)
    (e : List Char × Option (List Char)) : Pairs :=
  match e.2 with
  | none => acc
  | some v =>
    if preserveExisting && hasPair e.1 acc then acc
    else setPair e.1 v (deletePairs e.1 acc)

/-- The per-entry loop of the appender. -/
def applyParams (preserveExisting : Bool) (entries : ParamsO) (ps : Pairs) : Pairs :=
  entries.foldl (applyStep preserveExisting) ps

/-- The key list of a parameter set (`Object.keys(params)`). -/
def paramsNames (p : ParamsO) : List (List Char) := p.map (fun e => e.1)

/-- The fragment-cleanup step of `appendToQuery`: a fragment that looks like
parameters (contains `=`) has the injected keys deleted and is re-serialized;
an opaque fragment is left untouched. -/
def fragCleanup (u : Url) (names : List (List Char)) : List Char :=
  if u.fragment ≠ [] && u.fragment.contains '=' then
    serializePairs (deleteKeys names (parsePairs u.fragment))
  else u.fragment

/-- `appendToQuery`: clean conflicting keys out of a `=`-bearing fragment,
apply the entries to the query pairs, and rebuild the URL manually from
protocol, host, pathname, the custom query string and the fragment. -/
def appendToQuery (u : Url) (params : ParamsO) (preserveExisting : Bool) : List Char :=
  (u.scheme ++ ("://").data ++ u.host ++ u.path)
    ++ optQ (buildQueryString (applyParams preserveExisting params (parsePairs u.query)))
    ++ optF (fragCleanup u (paramsNames params))

/-- `appendToFragment`: delete conflicting keys from the query (which
re-serializes it), apply the entries to the fragment pairs, rebuild the
fragment with `buildQueryString`, and serialize the whole URL. -/
def appendToFragment (u : Url) (params : ParamsO) (preserveExisting : Bool) : List Char :=
  serializeUrl
    { u with
      query := serializePairs (deleteKeys (paramsNames params) (parsePairs u.query)),
      fragment :=
        buildQueryString (applyParams preserveExisting params (parsePairs u.fragment)) }

/-- `appendUtmParameters`: fast path on no valid entries, parse-failure
fallback, snake_case conversion, then placement dispatch. -/
def appendUtmParameters (url : List Char) (utmParams : ParamsO)
    (toFragment preserveExisting : Bool) : List Char :=
  if !hasValidUtmEntries utmParams then url
  else
    match parseUrl url with
    | none => url
    | some u =>
      let snakeParams := toSnakeCaseParams utmParams
      if toFragment then appendToFragment u snakeParams preserveExisting
      else appendToQuery u snakeParams preserveExisting

/-! ### Capture (src/core/capture.ts) -/

/-- One query entry of the capture loop: keep `utm_`-prefixed keys, filtered
by the allowlist when one is in force. -/
def captureStep (allowedSet : Option (List (List Char))) (acc : ParamsO)
    (e : List Char × List Char) : ParamsO :=
  if isSnakeCaseUtmKey e.1 then
    match allowedSet with
    | none => objInsert acc e.1 (some e.2)
    | some l => if l.contains e.1 then objInsert acc e.1 (some e.2) else acc
  else acc

/-- `captureUtmParameters` with an explicit URL: scan the query for
`utm_`-prefixed keys, filter by the allowlist only when it is nonempty,
then convert if camelCase was requested. -/
def captureUtmParameters (url : List Char) (keyFormat : KeyFormat)
    (allowedParameters : Option (List (List Char))) : ParamsO :=
  if url = [] then []
  else
    match parseUrl url with
    | none => []
    | some u =>
      let allowedSet : Option (List (List Char)) :=
        match allowedParameters with
        | some l => if 0 < l.length then some l else none
        | none => none
      let params : ParamsO := (parsePairs u.query).foldl (captureStep allowedSet) []
      match keyFormat with
      | .camelCase => convertParams params .camelCase
      | .snake_case => params

/-! ### Observation helpers for result URLs -/

/-- The fragment substring of a URL string (after the first `#`). -/
def fragmentPart (s : List Char) : List Char := ((splitFirstC '#' s).2).getD []

/-- The query substring of a URL string (after the first `?`, before the
fragment). -/
def queryPart (s : List Char) : List Char :=
  ((splitFirstC '?' (splitFirstC '#' s).1).2).getD []

/-- The parameter names a location holds.  For a fragment the library only
treats the content as parameters when it contains `=` (the convention of
`extractUtmParameters` and the conflict rule). -/
def fragParamNames (s : List Char) : List (List Char) :=
  if (fragmentPart s).contains '=' then (parsePairs (fragmentPart s)).map (fun e => e.1)
  else []

/-- The parameter names of the query component of a URL string. -/
def queryParamNames (s : List Char) : List (List Char) :=
  (parsePairs (queryPart s)).map (fun e => e.1)

end Utm

namespace Utm

/-! ### JSON and the session store (src/core/storage.ts)

`JSON.stringify` / `JSON.parse` are modelled for the values this library reads
and writes.  Fractional and exponent number literals are treated as parse
failures (their values never pass `isValidStoredData`, so every claim below is
insensitive to the distinction). -/

/-- A parsed JSON value. -/
inductive Json where
  | nullJ
  | boolJ (b : Bool)
  | numJ (n : Int)
  | strJ (s : List Char)
  | arrJ (l : List Json)
  | objJ (m : List (List Char × Json))

/-- `JSON.stringify` escaping of one string character. -/
def escapeJsonChar (c : Char) : List Char :=
  if c = quoteC then [backslashC, quoteC]
  else if c = backslashC then [backslashC, backslashC]
  else if c = Char.ofNat 8 then [backslashC, 'b']
  else if c = Char.ofNat 9 then [backslashC, 't']
  else if c = Char.ofNat 10 then [backslashC, 'n']
  else if c = Char.ofNat 12 then [backslashC, 'f']
  else if c = Char.ofNat 13 then [backslashC, 'r']
  else if c.toNat < 32 then
    [backslashC, 'u', '0', '0', toHexDigitLower (c.toNat / 16), toHexDigitLower (c.toNat % 16)]
  else [c]

/-- A JSON string literal. -/
def jsonQuote (s : List Char) : List Char :=
  quoteC :: (s.map escapeJsonChar).flatten ++ [quoteC]

/-- `JSON.stringify` of a flat string-valued object; properties whose value is
undefined are omitted. -/
def jsonStringifyParams (p : ParamsO) : List Char :=
  lbraceC ::
    intercalateC ','
      ((p.filterMap (fun e => e.2.map (fun v => (e.1, v)))).map
        (fun e => jsonQuote e.1 ++ ':' :: jsonQuote e.2))
    ++ [rbraceC]

/-- JSON insignificant whitespace. -/
def skipWs : List Char → List Char
  | c :: r =>
    if c = ' ' || c = Char.ofNat 9 || c = Char.ofNat 10 || c = Char.ofNat 13 then skipWs r
    else c :: r
  | [] => []

/-- Parse the remainder of a JSON string literal (after the opening quote),
returning the decoded content and the input after the closing quote. -/
def parseJsonString : List Char → Option (List Char × List Char)
  | [] => none
  | c :: r =>
    if c = quoteC then some ([], r)
    else if c = backslashC then
      match r with
      | [] => none
      | e :: r2 =>
        if e = quoteC then (parseJsonString r2).map (fun x => (quoteC :: x.1, x.2))
        else if e = backslashC then (parseJsonString r2).map (fun x => (backslashC :: x.1, x.2))
        else if e = '/' then (parseJsonString r2).map (fun x => ('/' :: x.1, x.2))
        else if e = 'b' then (parseJsonString r2).map (fun x => (Char.ofNat 8 :: x.1, x.2))
        else if e = 'f' then (parseJsonString r2).map (fun x => (Char.ofNat 12 :: x.1, x.2))
        else if e = 'n' then (parseJsonString r2).map (fun x => (Char.ofNat 10 :: x.1, x.2))
        else if e = 'r' then (parseJsonString r2).map (fun x => (Char.ofNat 13 :: x.1, x.2))
        else if e = 't' then (parseJsonString r2).map (fun x => (Char.ofNat 9 :: x.1, x.2))
        else if e = 'u' then
          match r2 with
          | h1 :: h2 :: h3 :: h4 :: r3 =>
            if isHexDigit h1 && isHexDigit h2 && isHexDigit h3 && isHexDigit h4 then
              (parseJsonString r3).map (fun x =>
                (Char.ofNat (4096 * hexVal h1 + 256 * hexVal h2 + 16 * hexVal h3 + hexVal h4)
                  :: x.1, x.2))
            else none
          | _ => none
        else none
    else if c.toNat < 32 then none
    else (parseJsonString r).map (fun x => (c :: x.1, x.2))

/-- Parse a JSON integer literal (lenient tail handling; see the section
comment). -/
def parseJsonNumber (s : List Char) : Option (Json × List Char) :=
  match s with
  | '-' :: r =>
    match r.span (fun c => isDigitC c) with
    | (ds, rest) =>
      if ds = [] then none
      else some (.numJ (-(ds.foldl (fun a c => 10 * a + (c.toNat - 48)) 0 : Nat)), rest)
  | _ =>
    match s.span (fun c => isDigitC c) with
    | (ds, rest) =>
      if ds = [] then none
      else some (.numJ ((ds.foldl (fun a c => 10 * a + (c.toNat - 48)) 0 : Nat)), rest)

mutual

/-- Parse one JSON value after optional whitespace.  The fuel argument bounds
the number of nested values and members; `parseJson` supplies enough for any
input. -/
def parseJsonValue : Nat → List Char → Option (Json × List Char)
  | 0, _ => none
  | Nat.succ fuel, s =>
    match skipWs s with
    | [] => none
    | c :: r =>
      if c = lbraceC then
        match skipWs r with
        | d :: r2 =>
          if d = rbraceC then some (.objJ [], r2)
          else parseJsonMembers fuel (d :: r2) []
        | [] => none
      else if c = '[' then
        match skipWs r with
        | ']' :: r2 => some (.arrJ [], r2)
        | r2 => parseJsonItems fuel r2 []
      else if c = quoteC then (parseJsonString r).map (fun x => (.strJ x.1, x.2))
      else if isPrefixL (("true").data) (c :: r) then some (.boolJ true, r.drop 3)
      else if isPrefixL (("false").data) (c :: r) then some (.boolJ false, r.drop 4)
      else if isPrefixL (("null").data) (c :: r) then some (.nullJ, r.drop 3)
      else parseJsonNumber (c :: r)

/-- Parse the members of a JSON object (positioned at a key), accumulating
with JS property-assignment semantics (duplicate keys overwrite in place). -/
def parseJsonMembers : Nat → List Char → List (List Char × Json) →
    Option (Json × List Char)
  | 0, _, _ => none
  | Nat.succ fuel, s, acc =>
    match s with
    | [] => none
    | d :: r =>
      if d = quoteC then
        match parseJsonString r with
        | none => none
        | some (k, r2) =>
          match skipWs r2 with
          | ':' :: r3 =>
            match parseJsonValue fuel r3 with
            | none => none
            | some (v, r4) =>
              match skipWs r4 with
              | ',' :: r5 => parseJsonMembers fuel (skipWs r5) (objInsert acc k v)
              | e :: r5 =>
                if e = rbraceC then some (.objJ (objInsert acc k v), r5) else none
              | [] => none
          | _ => none
      else none

/-- Parse the items of a JSON array (positioned at a value). -/
def parseJsonItems : Nat → List Char → List Json → Option (Json × List Char)
  | 0, _, _ => none
  | Nat.succ fuel, s, acc =>
    match parseJsonValue fuel s with
    | none => none
    | some (v, r) =>
      match skipWs r with
      | ',' :: r2 => parseJsonItems fuel r2 (acc ++ [v])
      | ']' :: r2 => some (.arrJ (acc ++ [v]), r2)
      | _ => none

end

/-- `JSON.parse`: parse one value and require only whitespace after it. -/
def parseJson (s : List Char) : Option Json :=
  match parseJsonValue (s.length + 1) s with
  | some (j, rest) => if skipWs rest = [] then some j else none
  | none => none

/-- `isValidStoredData` from storage.ts, as called by `getStoredUtmParameters`
(no key format passed): a non-null non-array object whose values are strings
and whose keys satisfy `isUtmKey`. -/
def isValidStoredData : Json → Bool
  | .objJ m =>
    m.all (fun e => (match e.2 with | .strJ _ => true | _ => false) && isUtmKey e.1)
  | _ => false

/-- The entries of a validated stored object as a parameter set. -/
def jsonToParams : Json → ParamsO
  | .objJ m => m.map (fun e => (e.1, match e.2 with | .strJ s => some s | _ => none))
  | _ => []

/-- The session storage medium: one string slot per key, always available (the
claims under verification presuppose available storage). -/
abbrev Store := List (List Char × List Char)

/-- `DEFAULT_STORAGE_KEY`. -/
def DEFAULT_STORAGE_KEY : List Char := ("utm_parameters").data

/-- `storeUtmParameters`: no-op on an empty parameter set, otherwise convert
to the storage format, serialize, and write to the slot. -/
def storeUtmParameters (params : ParamsO) (storageKey : List Char)
    (keyFormat : KeyFormat) (store : Store) : Store :=
  if params.length = 0 then store
  else objInsert store storageKey (jsonStringifyParams (convertParams params keyFormat))

/-- `getStoredUtmParameters`: absent slot, parse failure and validation
failure all yield `none`; otherwise the entries, converted when a format is
requested. -/
def getStoredUtmParameters (storageKey : List Char) (keyFormat : Option KeyFormat)
    (store : Store) : Option ParamsO :=
  match lookupL storageKey store with
  | none => none
  | some s =>
    match parseJson s with
    | none => none
    | some j =>
      if isValidStoredData j then
        match keyFormat with
        | some f => some (convertParams (jsonToParams j) f)
        | none => some (jsonToParams j)
      else none

end Utm

namespace Utm

/-! ### Derived observation definitions used by the lemmas below -/

/-- The single-pair segment of `buildQueryString`. -/
def buildSeg (e : List Char × List Char) : List Char :=
  if e.2 = [] then encodeURIComponent e.1
  else encodeURIComponent e.1 ++ '=' :: encodeURIComponent e.2

/-- The defined entries of a parameter set as plain pairs. -/
def unwrapParams (p : ParamsO) : Pairs :=
  p.filterMap (fun e => e.2.map (fun v => (e.1, v)))

/-- The 26 lowercase ASCII letters. -/
def lowercaseLetters : List Char := ("abcdefghijklmnopqrstuvwxyz").data

/-- A word usable in a custom key suffix: nonempty, lowercase letters only. -/
def lowerWord (w : List Char) : Prop := w ≠ [] ∧ ∀ c ∈ w, c ∈ lowercaseLetters

/-- The camelCase rendering of a word list: each word capitalized, no
separators. -/
def camelCat (ws : List (List Char)) : List Char := (ws.map upperFirst).flatten

/-- One serialized member of `jsonStringifyParams`. -/
def segJ (e : List Char × List Char) : List Char := jsonQuote e.1 ++ ':' :: jsonQuote e.2

end Utm

namespace Utm

/-! ### Generic lemmas about the string-splitting primitives -/

lemma splitFirstC_not_mem (c : Char) (s : List Char) (h : c ∉ s) :
    splitFirstC c s = (s, none) := by
  induction s with
  | nil => rfl
  | cons x xs ih =>
    have hx : ¬x = c := by rintro rfl; exact h (List.mem_cons_self _ _)
    have h' : c ∉ xs := fun hm => h (List.mem_cons_of_mem _ hm)
    simp [splitFirstC, hx, ih h']

lemma splitFirstC_append (c : Char) (a b : List Char) (h : c ∉ a) :
    splitFirstC c (a ++ c :: b) = (a, some b) := by
  induction a with
  | nil => simp [splitFirstC]
  | cons x xs ih =>
    have hx : ¬x = c := by rintro rfl; exact h (List.mem_cons_self _ _)
    have h' : c ∉ xs := fun hm => h (List.mem_cons_of_mem _ hm)
    simp [splitFirstC, hx, ih h']

lemma splitOnC_not_mem (c : Char) (s : List Char) (h : c ∉ s) :
    splitOnC c s = [s] := by
  induction s with
  | nil => rfl
  | cons x xs ih =>
    have hx : ¬x = c := by rintro rfl; exact h (List.mem_cons_self _ _)
    have h' : c ∉ xs := fun hm => h (List.mem_cons_of_mem _ hm)
    simp [splitOnC, hx, ih h']

lemma splitOnC_append (c : Char) (a t : List Char) (h : c ∉ a) :
    splitOnC c (a ++ c :: t) = a :: splitOnC c t := by
  induction a with
  | nil => simp [splitOnC]
  | cons x xs ih =>
    have hx : ¬x = c := by rintro rfl; exact h (List.mem_cons_self _ _)
    have h' : c ∉ xs := fun hm => h (List.mem_cons_of_mem _ hm)
    rw [List.cons_append]
    simp only [splitOnC, if_neg hx, ih h']

lemma not_mem_of_all_not (s : List Char) (p : Char → Bool) (h : s.all p = true) (c : Char)
    (hc : p c = false) : c ∉ s := by
  intro hm
  have := List.all_eq_true.mp h c hm
  rw [hc] at this
  exact Bool.noConfusion this

lemma intercalateC_cons (c : Char) (s : List Char) (r : List (List Char)) (h : r ≠ []) :
    intercalateC c (s :: r) = s ++ c :: intercalateC c r := by
  cases r with
  | nil => exact absurd rfl h
  | cons t ts => rfl

lemma splitOnC_intercalateC (c : Char) (segs : List (List Char)) (hne : segs ≠ [])
    (h : ∀ s ∈ segs, c ∉ s) :
    splitOnC c (intercalateC c segs) = segs := by
  induction segs with
  | nil => exact absurd rfl hne
  | cons s r ih =>
    cases r with
    | nil => exact splitOnC_not_mem c s (h s (List.mem_cons_self _ _))
    | cons t ts =>
      rw [intercalateC_cons c s _ (by simp)]
      rw [splitOnC_append c s _ (h s (List.mem_cons_self _ _))]
      rw [ih (by simp) (fun x hx => h x (List.mem_cons_of_mem _ hx))]

lemma optQ_nil : optQ [] = [] := rfl

lemma optF_nil : optF [] = [] := rfl

lemma mem_optQ (c : Char) (q : List Char) (h : c ∈ optQ q) : c = '?' ∨ c ∈ q := by
  unfold optQ at h
  split at h
  · exact absurd h (List.not_mem_nil c)
  · rcases List.mem_cons.mp h with h | h
    · exact Or.inl h
    · exact Or.inr h

lemma mem_optF (c : Char) (f : List Char) (h : c ∈ optF f) : c = '#' ∨ c ∈ f := by
  unfold optF at h
  split at h
  · exact absurd h (List.not_mem_nil c)
  · rcases List.mem_cons.mp h with h | h
    · exact Or.inl h
    · exact Or.inr h

lemma fragmentPart_build (base q f : List Char) (hb : '#' ∉ base) (hq : '#' ∉ q) :
    fragmentPart (base ++ optQ q ++ optF f) = f := by
  have hbq : '#' ∉ base ++ optQ q := by
    intro hm
    rcases List.mem_append.mp hm with h | h
    · exact hb h
    · rcases mem_optQ _ _ h with h | h
      · exact absurd h (by decide)
      · exact hq h
  by_cases hf : f = []
  · subst hf
    rw [optF_nil, List.append_nil]
    unfold fragmentPart
    rw [splitFirstC_not_mem _ _ hbq]
    rfl
  · unfold optF
    rw [if_neg hf]
    unfold fragmentPart
    rw [splitFirstC_append _ _ _ hbq]
    rfl

lemma queryPart_build (base q f : List Char) (hb : '#' ∉ base) (hb2 : '?' ∉ base)
    (hq : '#' ∉ q) :
    queryPart (base ++ optQ q ++ optF f) = q := by
  have hbq : '#' ∉ base ++ optQ q := by
    intro hm
    rcases List.mem_append.mp hm with h | h
    · exact hb h
    · rcases mem_optQ _ _ h with h | h
      · exact absurd h (by decide)
      · exact hq h
  have hfirst : (splitFirstC '#' (base ++ optQ q ++ optF f)).1 = base ++ optQ q := by
    by_cases hf : f = []
    · subst hf
      rw [optF_nil, List.append_nil, splitFirstC_not_mem _ _ hbq]
    · unfold optF
      rw [if_neg hf, splitFirstC_append _ _ _ hbq]
  unfold queryPart
  rw [hfirst]
  by_cases hqe : q = []
  · subst hqe
    rw [optQ_nil, List.append_nil, splitFirstC_not_mem _ _ hb2]
    rfl
  · unfold optQ
    rw [if_neg hqe, splitFirstC_append _ _ _ hb2]
    rfl

end Utm

namespace Utm

/-! ### Codec round-trip lemmas -/

lemma hexVal_toHexDigit (m : Nat) (h : m < 16) : hexVal (toHexDigit m) = m := by
  interval_cases m <;> decide

lemma isHexDigit_toHexDigit (m : Nat) (h : m < 16) : isHexDigit (toHexDigit m) = true := by
  interval_cases m <;> decide

lemma percentDecode_cons_ne (c : Char) (t : List Char) (h : ¬c = '%') :
    percentDecode (c :: t) = c :: percentDecode t := by
  rw [percentDecode.eq_def]
  split <;> simp_all

lemma percentDecode_hex (n : Nat) (hn : n < 128) (t : List Char) :
    percentDecode ('%' :: toHexDigit (n / 16) :: toHexDigit (n % 16) :: t)
      = Char.ofNat n :: percentDecode t := by
  have h1 : n / 16 < 16 := by omega
  have h2 : n % 16 < 16 := Nat.mod_lt _ (by omega)
  simp only [percentDecode, isHexDigit_toHexDigit _ h1, isHexDigit_toHexDigit _ h2,
    Bool.and_self, if_pos, hexVal_toHexDigit _ h1, hexVal_toHexDigit _ h2]
  rw [Nat.div_add_mod]

end Utm

namespace Utm

lemma plusToSpace_append (a b : List Char) :
    plusToSpace (a ++ b) = plusToSpace a ++ plusToSpace b := by
  simp [plusToSpace]

lemma plusToSpace_cons_ne (c : Char) (t : List Char) (h : ¬c = '+') :
    plusToSpace (c :: t) = c :: plusToSpace t := by
  simp [plusToSpace, h]

lemma toHexDigit_ne_plus (m : Nat) : ¬toHexDigit m = '+' := by
  unfold toHexDigit
  split <;> decide

lemma toHexDigit_ne_hash (m : Nat) : ¬toHexDigit m = '#' := by
  unfold toHexDigit
  split <;> decide

lemma formKeepB_ne (c : Char) (h : formKeepB c = true) : ¬c = '+' ∧ ¬c = '%' := by
  constructor <;> rintro rfl <;> exact absurd h (by decide)

lemma encKeepB_ne (c : Char) (h : encKeepB c = true) : ¬c = '+' ∧ ¬c = '%' := by
  constructor <;> rintro rfl <;> exact absurd h (by decide)

lemma high_ne (c : Char) (h : 128 ≤ c.toNat) : ¬c = '+' ∧ ¬c = '%' := by
  constructor <;> rintro rfl <;> exact absurd h (by decide)

lemma decode_formEncodeChar (c : Char) (t : List Char) :
    decodeComponentW (formEncodeChar c ++ t) = c :: decodeComponentW t := by
  unfold decodeComponentW formEncodeChar
  split
  · rename_i hsp
    subst hsp
    rw [List.singleton_append,
      show plusToSpace ('+' :: t) = ' ' :: plusToSpace t from by simp [plusToSpace]]
    exact percentDecode_cons_ne _ _ (by decide)
  · rename_i hsp
    split
    · rename_i hk
      rw [List.singleton_append,
        plusToSpace_cons_ne _ _ (formKeepB_ne c hk).1,
        percentDecode_cons_ne _ _ (formKeepB_ne c hk).2]
    · split
      · rename_i hk hlt
        rw [show (['%', toHexDigit (c.toNat / 16), toHexDigit (c.toNat % 16)] ++ t : List Char)
            = '%' :: toHexDigit (c.toNat / 16) :: toHexDigit (c.toNat % 16) :: t from rfl]
        rw [plusToSpace_cons_ne _ _ (by decide),
          plusToSpace_cons_ne _ _ (toHexDigit_ne_plus _),
          plusToSpace_cons_ne _ _ (toHexDigit_ne_plus _)]
        rw [percentDecode_hex c.toNat hlt]
        rw [Char.ofNat_toNat]
      · rename_i hk hlt
        have hge : 128 ≤ c.toNat := by omega
        rw [List.singleton_append,
          plusToSpace_cons_ne _ _ (high_ne c hge).1,
          percentDecode_cons_ne _ _ (high_ne c hge).2]

lemma decode_encChar (c : Char) (t : List Char) :
    decodeComponentW (encChar c ++ t) = c :: decodeComponentW t := by
  unfold decodeComponentW encChar
  split
  · rename_i hk
    rw [List.singleton_append,
      plusToSpace_cons_ne _ _ (encKeepB_ne c hk).1,
      percentDecode_cons_ne _ _ (encKeepB_ne c hk).2]
  · split
    · rename_i hk hlt
      rw [show (['%', toHexDigit (c.toNat / 16), toHexDigit (c.toNat % 16)] ++ t : List Char)
          = '%' :: toHexDigit (c.toNat / 16) :: toHexDigit (c.toNat % 16) :: t from rfl]
      rw [plusToSpace_cons_ne _ _ (by decide),
        plusToSpace_cons_ne _ _ (toHexDigit_ne_plus _),
        plusToSpace_cons_ne _ _ (toHexDigit_ne_plus _)]
      rw [percentDecode_hex c.toNat hlt]
      rw [Char.ofNat_toNat]
    · rename_i hk hlt
      have hge : 128 ≤ c.toNat := by omega
      rw [List.singleton_append,
        plusToSpace_cons_ne _ _ (high_ne c hge).1,
        percentDecode_cons_ne _ _ (high_ne c hge).2]

lemma formEncode_cons (c : Char) (s : List Char) :
    formEncode (c :: s) = formEncodeChar c ++ formEncode s := by
  simp [formEncode]

lemma encodeURIComponent_cons (c : Char) (s : List Char) :
    encodeURIComponent (c :: s) = encChar c ++ encodeURIComponent s := by
  simp [encodeURIComponent]

lemma decode_formEncode_append (s t : List Char) :
    decodeComponentW (formEncode s ++ t) = s ++ decodeComponentW t := by
  induction s with
  | nil => rfl
  | cons c s ih =>
    rw [formEncode_cons, List.append_assoc, decode_formEncodeChar, ih]
    rfl

lemma decode_encodeURIComponent_append (s t : List Char) :
    decodeComponentW (encodeURIComponent s ++ t) = s ++ decodeComponentW t := by
  induction s with
  | nil => rfl
  | cons c s ih =>
    rw [encodeURIComponent_cons, List.append_assoc, decode_encChar, ih]
    rfl

lemma decode_formEncode (s : List Char) : decodeComponentW (formEncode s) = s := by
  have h := decode_formEncode_append s []
  rw [List.append_nil] at h
  rw [h]
  simp [decodeComponentW, plusToSpace, percentDecode]

lemma decode_encodeURIComponent (s : List Char) :
    decodeComponentW (encodeURIComponent s) = s := by
  have h := decode_encodeURIComponent_append s []
  rw [List.append_nil] at h
  rw [h]
  simp [decodeComponentW, plusToSpace, percentDecode]

end Utm

namespace Utm

lemma isHexDigit_toHexDigit_any (m : Nat) : isHexDigit (toHexDigit m) = true := by
  unfold toHexDigit
  split <;> decide

lemma mem_formEncodeChar (x c : Char) (h : x ∈ formEncodeChar c) :
    (128 ≤ x.toNat ∧ x = c)
      ∨ (formKeepB x || decide (x = '+') || decide (x = '%') || isHexDigit x) = true := by
  unfold formEncodeChar at h
  split at h
  · simp only [List.mem_cons, List.not_mem_nil, or_false] at h
    subst h
    right
    decide
  · split at h
    · rename_i hk
      simp only [List.mem_cons, List.not_mem_nil, or_false] at h
      subst h
      right
      simp [hk]
    · split at h
      · simp only [List.mem_cons, List.not_mem_nil, or_false] at h
        right
        rcases h with rfl | rfl | rfl
        · decide
        · simp [isHexDigit_toHexDigit_any]
        · simp [isHexDigit_toHexDigit_any]
      · rename_i hlt
        simp only [List.mem_cons, List.not_mem_nil, or_false] at h
        subst h
        left
        exact ⟨by omega, rfl⟩

lemma mem_encChar (x c : Char) (h : x ∈ encChar c) :
    (128 ≤ x.toNat ∧ x = c)
      ∨ (encKeepB x || decide (x = '%') || isHexDigit x) = true := by
  unfold encChar at h
  split at h
  · rename_i hk
    simp only [List.mem_cons, List.not_mem_nil, or_false] at h
    subst h
    right
    simp [hk]
  · rename_i hk
    split at h
    · rename_i hlt
      simp only [List.mem_cons, List.not_mem_nil, or_false] at h
      right
      rcases h with rfl | rfl | rfl
      · decide
      · simp [isHexDigit_toHexDigit_any]
      · simp [isHexDigit_toHexDigit_any]
    · rename_i hlt
      simp only [List.mem_cons, List.not_mem_nil, or_false] at h
      subst h
      left
      exact ⟨by omega, rfl⟩

lemma delim_not_mem_formEncode (d : Char) (s : List Char)
    (hd : (formKeepB d || decide (d = '+') || decide (d = '%') || isHexDigit d) = false)
    (hlt : d.toNat < 128) : d ∉ formEncode s := by
  intro hm
  unfold formEncode at hm
  rcases List.mem_flatten.mp hm with ⟨l, hl, hx⟩
  rcases List.mem_map.mp hl with ⟨c, _, rfl⟩
  rcases mem_formEncodeChar d c hx with ⟨hge, _⟩ | hout
  · omega
  · rw [hout] at hd
    exact Bool.noConfusion hd

lemma delim_not_mem_enc (d : Char) (s : List Char)
    (hd : (encKeepB d || decide (d = '%') || isHexDigit d) = false)
    (hlt : d.toNat < 128) : d ∉ encodeURIComponent s := by
  intro hm
  unfold encodeURIComponent at hm
  rcases List.mem_flatten.mp hm with ⟨l, hl, hx⟩
  rcases List.mem_map.mp hl with ⟨c, _, rfl⟩
  rcases mem_encChar d c hx with ⟨hge, _⟩ | hout
  · omega
  · rw [hout] at hd
    exact Bool.noConfusion hd

lemma amp_not_mem_formEncode (s : List Char) : '&' ∉ formEncode s :=
  delim_not_mem_formEncode _ _ (by decide) (by decide)

lemma eq_not_mem_formEncode (s : List Char) : '=' ∉ formEncode s :=
  delim_not_mem_formEncode _ _ (by decide) (by decide)

lemma hash_not_mem_formEncode (s : List Char) : '#' ∉ formEncode s :=
  delim_not_mem_formEncode _ _ (by decide) (by decide)

lemma amp_not_mem_enc (s : List Char) : '&' ∉ encodeURIComponent s :=
  delim_not_mem_enc _ _ (by decide) (by decide)

lemma eq_not_mem_enc (s : List Char) : '=' ∉ encodeURIComponent s :=
  delim_not_mem_enc _ _ (by decide) (by decide)

lemma hash_not_mem_enc (s : List Char) : '#' ∉ encodeURIComponent s :=
  delim_not_mem_enc _ _ (by decide) (by decide)

lemma encChar_ne_nil (c : Char) : encChar c ≠ [] := by
  unfold encChar
  split
  · simp
  · split <;> simp

lemma encodeURIComponent_eq_nil (s : List Char) : encodeURIComponent s = [] ↔ s = [] := by
  cases s with
  | nil => simp [encodeURIComponent]
  | cons c r =>
    simp only [encodeURIComponent_cons]
    constructor
    · intro h
      exact absurd (List.append_eq_nil.mp h).1 (encChar_ne_nil c)
    · intro h
      exact absurd h (by simp)

end Utm

namespace Utm

/-! ### Round trips between the pair parser and the two serializers -/

lemma parsePair_ser (e : List Char × List Char) :
    parsePair (formEncode e.1 ++ '=' :: formEncode e.2) = e := by
  unfold parsePair
  rw [splitFirstC_append _ _ _ (eq_not_mem_formEncode e.1)]
  simp [decode_formEncode]

lemma serSeg_ne_nil (e : List Char × List Char) :
    formEncode e.1 ++ '=' :: formEncode e.2 ≠ [] := by
  simp

lemma amp_not_mem_serSeg (e : List Char × List Char) :
    '&' ∉ formEncode e.1 ++ '=' :: formEncode e.2 := by
  intro hm
  rcases List.mem_append.mp hm with h | h
  · exact amp_not_mem_formEncode _ h
  · rcases List.mem_cons.mp h with h | h
    · exact absurd h (by decide)
    · exact amp_not_mem_formEncode _ h

lemma parsePairs_serializePairs (l : Pairs) : parsePairs (serializePairs l) = l := by
  cases l with
  | nil => rfl
  | cons e r =>
    unfold parsePairs serializePairs
    rw [splitOnC_intercalateC '&' _ (by simp)
      (by
        intro s hs
        rcases List.mem_map.mp hs with ⟨a, _, rfl⟩
        exact amp_not_mem_serSeg a)]
    rw [List.filter_eq_self.mpr
      (by
        intro s hs
        rcases List.mem_map.mp hs with ⟨a, _, rfl⟩
        simpa using serSeg_ne_nil a)]
    rw [List.map_map]
    rw [show (parsePair ∘ fun e : List Char × List Char =>
        formEncode e.1 ++ '=' :: formEncode e.2) = id from funext (fun a => parsePair_ser a)]
    simp

lemma buildQueryString_eq (l : Pairs) : buildQueryString l = intercalateC '&' (l.map buildSeg) := rfl

lemma amp_not_mem_buildSeg (e : List Char × List Char) : '&' ∉ buildSeg e := by
  unfold buildSeg
  split
  · exact amp_not_mem_enc _
  · intro hm
    rcases List.mem_append.mp hm with h | h
    · exact amp_not_mem_enc _ h
    · rcases List.mem_cons.mp h with h | h
      · exact absurd h (by decide)
      · exact amp_not_mem_enc _ h

lemma hash_not_mem_buildSeg (e : List Char × List Char) : '#' ∉ buildSeg e := by
  unfold buildSeg
  split
  · exact hash_not_mem_enc _
  · intro hm
    rcases List.mem_append.mp hm with h | h
    · exact hash_not_mem_enc _ h
    · rcases List.mem_cons.mp h with h | h
      · exact absurd h (by decide)
      · exact hash_not_mem_enc _ h

lemma buildSeg_eq_nil (e : List Char × List Char) :
    buildSeg e = [] ↔ e.1 = [] ∧ e.2 = [] := by
  unfold buildSeg
  split
  · rename_i hv
    simp [encodeURIComponent_eq_nil, hv]
  · rename_i hv
    simp [hv]

lemma parsePair_buildSeg (e : List Char × List Char) : parsePair (buildSeg e) = e := by
  unfold buildSeg
  split
  · rename_i hv
    unfold parsePair
    rw [splitFirstC_not_mem _ _ (eq_not_mem_enc e.1)]
    show (decodeComponentW (encodeURIComponent e.1), ([] : List Char)) = e
    rw [decode_encodeURIComponent, ← hv]
  · unfold parsePair
    rw [splitFirstC_append _ _ _ (eq_not_mem_enc e.1)]
    simp [decode_encodeURIComponent]

lemma parsePairs_filter_map_buildSeg (l : Pairs) :
    (((l.map buildSeg).filter (fun s => s ≠ [])).map parsePair)
      = l.filter (fun e => !(decide (e.1 = []) && decide (e.2 = []))) := by
  induction l with
  | nil => rfl
  | cons e r ih =>
    simp only [List.map_cons, List.filter_cons]
    by_cases hnil : buildSeg e = []
    · rcases (buildSeg_eq_nil e).mp hnil with ⟨h1, h2⟩
      simp only [hnil, h1, h2]
      simpa using ih
    · have h12 : ¬(e.1 = [] ∧ e.2 = []) := fun hc => hnil ((buildSeg_eq_nil e).mpr hc)
      by_cases h1 : e.1 = []
      · have h2 : ¬e.2 = [] := fun hc => h12 ⟨h1, hc⟩
        simpa [hnil, h1, h2, parsePair_buildSeg] using ih
      · simpa [hnil, h1, parsePair_buildSeg] using ih

end Utm

namespace Utm

lemma parsePairs_buildQueryString (l : Pairs) :
    parsePairs (buildQueryString l)
      = l.filter (fun e => !(decide (e.1 = []) && decide (e.2 = []))) := by
  cases l with
  | nil => rfl
  | cons e r =>
    unfold parsePairs
    rw [buildQueryString_eq]
    rw [splitOnC_intercalateC '&' _ (by simp) (fun s hs => by
      rcases List.mem_map.mp hs with ⟨a, _, rfl⟩
      exact amp_not_mem_buildSeg a)]
    exact parsePairs_filter_map_buildSeg (e :: r)

lemma mem_intercalateC (x c : Char) (segs : List (List Char)) (h : x ∈ intercalateC c segs) :
    x = c ∨ ∃ s ∈ segs, x ∈ s := by
  induction segs with
  | nil => exact absurd h (List.not_mem_nil x)
  | cons s r ih =>
    cases r with
    | nil => exact Or.inr ⟨s, List.mem_cons_self _ _, h⟩
    | cons t ts =>
      rw [intercalateC_cons _ _ _ (by simp)] at h
      rcases List.mem_append.mp h with h | h
      · exact Or.inr ⟨s, List.mem_cons_self _ _, h⟩
      · rcases List.mem_cons.mp h with h | h
        · exact Or.inl h
        · rcases ih h with h | ⟨u, hu, hx⟩
          · exact Or.inl h
          · exact Or.inr ⟨u, List.mem_cons_of_mem _ hu, hx⟩

lemma hash_not_mem_buildQueryString (l : Pairs) : '#' ∉ buildQueryString l := by
  intro hm
  rw [buildQueryString_eq] at hm
  rcases mem_intercalateC _ _ _ hm with h | ⟨s, hs, hx⟩
  · exact absurd h (by decide)
  · rcases List.mem_map.mp hs with ⟨a, _, rfl⟩
    exact hash_not_mem_buildSeg a hx

lemma hash_not_mem_serSeg (e : List Char × List Char) :
    '#' ∉ formEncode e.1 ++ '=' :: formEncode e.2 := by
  intro hm
  rcases List.mem_append.mp hm with h | h
  · exact hash_not_mem_formEncode _ h
  · rcases List.mem_cons.mp h with h | h
    · exact absurd h (by decide)
    · exact hash_not_mem_formEncode _ h

lemma hash_not_mem_serializePairs (l : Pairs) : '#' ∉ serializePairs l := by
  intro hm
  unfold serializePairs at hm
  rcases mem_intercalateC _ _ _ hm with h | ⟨s, hs, hx⟩
  · exact absurd h (by decide)
  · rcases List.mem_map.mp hs with ⟨a, _, rfl⟩
    exact hash_not_mem_serSeg a hx

lemma eq_mem_serializePairs (l : Pairs) (h : l ≠ []) : '=' ∈ serializePairs l := by
  cases l with
  | nil => exact absurd rfl h
  | cons e r =>
    unfold serializePairs
    have hin : '=' ∈ formEncode e.1 ++ '=' :: formEncode e.2 :=
      List.mem_append.mpr (Or.inr (List.mem_cons_self _ _))
    cases r with
    | nil => exact hin
    | cons t ts =>
      rw [List.map_cons, intercalateC_cons _ _ _ (by simp)]
      exact List.mem_append.mpr (Or.inl hin)

end Utm

namespace Utm

/-! ### Algebra of the pair operations -/

lemma deleteKeys_nil (ps : Pairs) : deleteKeys [] ps = ps := rfl

lemma deleteKeys_cons (k : List Char) (ks : List (List Char)) (ps : Pairs) :
    deleteKeys (k :: ks) ps = deleteKeys ks (deletePairs k ps) := rfl

lemma deleteKeys_eq_filter (ks : List (List Char)) (ps : Pairs) :
    deleteKeys ks ps = ps.filter (fun e => !ks.contains e.1) := by
  induction ks generalizing ps with
  | nil =>
    rw [deleteKeys_nil]
    exact (List.filter_eq_self.mpr (fun a _ => by simp)).symm
  | cons k ks ih =>
    rw [deleteKeys_cons, ih]
    unfold deletePairs
    rw [List.filter_filter]
    congr 1
    funext e
    by_cases hek : e.1 = k <;> simp [hek, List.contains_cons]

lemma hasPair_deletePairs_self (k : List Char) (ps : Pairs) :
    hasPair k (deletePairs k ps) = false := by
  unfold hasPair deletePairs
  rw [List.any_eq_false]
  intro e he
  rcases List.mem_filter.mp he with ⟨_, hne⟩
  simpa using hne

lemma setPair_not_has (k v : List Char) (ps : Pairs) (h : hasPair k ps = false) :
    setPair k v ps = ps ++ [(k, v)] := by
  induction ps with
  | nil => rfl
  | cons e r ih =>
    unfold hasPair at h
    rw [List.any_cons] at h
    rcases Bool.or_eq_false_iff.mp h with ⟨h1, h2⟩
    unfold setPair
    rw [if_neg (by simpa using h1), ih h2]
    rfl

lemma applyParams_nil (pe : Bool) (ps : Pairs) : applyParams pe [] ps = ps := rfl

lemma applyParams_cons (pe : Bool) (e : List Char × Option (List Char)) (r : ParamsO)
    (ps : Pairs) :
    applyParams pe (e :: r) ps = applyParams pe r (applyStep pe ps e) := rfl

lemma applyStep_false_some (ps : Pairs) (k : List Char) (v : List Char) :
    applyStep false ps (k, some v) = deletePairs k ps ++ [(k, v)] := by
  show (if false = true then ps else setPair k v (deletePairs k ps))
      = deletePairs k ps ++ [(k, v)]
  rw [if_neg (fun h => Bool.noConfusion h)]
  exact setPair_not_has _ _ _ (hasPair_deletePairs_self _ _)

lemma unwrapParams_cons_some (k : List Char) (v : List Char) (r : ParamsO) :
    unwrapParams ((k, some v) :: r) = (k, v) :: unwrapParams r := rfl

lemma paramsNames_cons (e : List Char × Option (List Char)) (r : ParamsO) :
    paramsNames (e :: r) = e.1 :: paramsNames r := rfl

lemma applyParams_false_eq (sp : ParamsO) (q : Pairs)
    (hnd : (paramsNames sp).Nodup) (hsome : ∀ e ∈ sp, e.2 ≠ none) :
    applyParams false sp q = deleteKeys (paramsNames sp) q ++ unwrapParams sp := by
  induction sp generalizing q with
  | nil => simp [applyParams_nil, deleteKeys_nil, unwrapParams, paramsNames]
  | cons e r ih =>
    obtain ⟨v, hv⟩ : ∃ v, e.2 = some v := by
      cases hev : e.2 with
      | none => exact absurd hev (hsome e (List.mem_cons_self _ _))
      | some v => exact ⟨v, rfl⟩
    obtain ⟨k, hk⟩ : ∃ k, e = (k, some v) := ⟨e.1, by rw [← hv]⟩
    subst hk
    have hnd0 := hnd
    rw [paramsNames_cons, List.nodup_cons] at hnd0
    have hknotmem : (k, some v).1 ∉ paramsNames r := hnd0.1
    have hsome' : ∀ x ∈ r, x.2 ≠ none := fun x hx => hsome x (List.mem_cons_of_mem _ hx)
    rw [applyParams_cons, applyStep_false_some, ih _ hnd0.2 hsome']
    rw [paramsNames_cons, unwrapParams_cons_some, deleteKeys_cons]
    rw [deleteKeys_eq_filter, deleteKeys_eq_filter, List.filter_append]
    have hcontains : (paramsNames r).contains (k, some v).1 = false := by
      rw [List.contains_eq_any_beq, List.any_eq_false]
      intro x hx
      simp only [beq_iff_eq]
      intro hxk
      exact hknotmem (hxk ▸ hx)
    have hk' : k ∉ paramsNames r := hknotmem
    rw [show List.filter (fun e => !(paramsNames r).contains e.1) [((k, some v).1, v)]
        = [((k, some v).1, v)] from by simp [hk']]
    rw [List.append_assoc]
    rfl

end Utm

namespace Utm

/-! ### Invariants of object insertion and `convertParams` -/

lemma paramsNames_objInsert_mem (l : ParamsO) (k : List Char) (v : Option (List Char))
    (h : l.any (fun e => e.1 = k) = true) :
    paramsNames (objInsert l k v) = paramsNames l := by
  unfold objInsert
  rw [if_pos h]
  unfold paramsNames
  rw [List.map_map]
  congr 1
  funext e
  by_cases hek : e.1 = k <;> simp [hek]

lemma paramsNames_objInsert_not_mem (l : ParamsO) (k : List Char) (v : Option (List Char))
    (h : l.any (fun e => e.1 = k) = false) :
    paramsNames (objInsert l k v) = paramsNames l ++ [k] := by
  unfold objInsert
  rw [if_neg (by simp [h])]
  unfold paramsNames
  simp

lemma any_names_iff (l : ParamsO) (k : List Char) :
    l.any (fun e => e.1 = k) = true ↔ k ∈ paramsNames l := by
  rw [List.any_eq_true]
  constructor
  · rintro ⟨e, he, hk⟩
    exact List.mem_map.mpr ⟨e, he, by simpa using hk⟩
  · intro hm
    rcases List.mem_map.mp hm with ⟨e, he, hk⟩
    exact ⟨e, he, by simpa using hk⟩

lemma nodup_paramsNames_objInsert (l : ParamsO) (k : List Char) (v : Option (List Char))
    (h : (paramsNames l).Nodup) : (paramsNames (objInsert l k v)).Nodup := by
  cases hmem : l.any (fun e => e.1 = k) with
  | true => rw [paramsNames_objInsert_mem _ _ _ hmem]; exact h
  | false =>
    rw [paramsNames_objInsert_not_mem _ _ _ hmem]
    rw [List.nodup_append]
    refine ⟨h, List.nodup_singleton k, ?_⟩
    intro a ha hb
    rcases List.mem_singleton.mp hb with rfl
    exact absurd ((any_names_iff l a).mpr ha) (by simp [hmem])

lemma some_values_objInsert (l : ParamsO) (k : List Char) (v : List Char)
    (h : ∀ e ∈ l, e.2 ≠ none) : ∀ e ∈ objInsert l k (some v), e.2 ≠ none := by
  intro e he
  unfold objInsert at he
  split at he
  · rcases List.mem_map.mp he with ⟨a, ha, rfl⟩
    by_cases hak : a.1 = k <;> simp [hak]
    exact h a ha
  · rcases List.mem_append.mp he with hx | hx
    · exact h e hx
    · rcases List.mem_singleton.mp hx with rfl
      simp

lemma convert_foldl_nodup (f : KeyFormat) (p : ParamsO) :
    ∀ acc : ParamsO, (paramsNames acc).Nodup →
      (paramsNames (p.foldl (convertStep f) acc)).Nodup := by
  induction p with
  | nil => exact fun acc h => h
  | cons e r ih =>
    intro acc hacc
    rw [List.foldl_cons]
    apply ih
    unfold convertStep
    cases e.2 with
    | none => exact hacc
    | some v => exact nodup_paramsNames_objInsert _ _ _ hacc

lemma convert_foldl_some (f : KeyFormat) (p : ParamsO) :
    ∀ acc : ParamsO, (∀ e ∈ acc, e.2 ≠ none) →
      ∀ e ∈ p.foldl (convertStep f) acc, e.2 ≠ none := by
  induction p with
  | nil => exact fun acc h => h
  | cons e r ih =>
    intro acc hacc
    rw [List.foldl_cons]
    apply ih
    unfold convertStep
    cases e.2 with
    | none => exact hacc
    | some v => exact some_values_objInsert _ _ _ hacc

lemma convertParams_nodup (p : ParamsO) (f : KeyFormat) :
    (paramsNames (convertParams p f)).Nodup :=
  convert_foldl_nodup f p [] List.nodup_nil

lemma convertParams_some (p : ParamsO) (f : KeyFormat) :
    ∀ e ∈ convertParams p f, e.2 ≠ none :=
  convert_foldl_some f p [] (by intro e he; exact absurd he (List.not_mem_nil e))

end Utm

namespace Utm

/-! ### Shape of parsed URLs and parsing of rebuilt URLs -/

lemma isPrefixL_append_self (a b : List Char) : isPrefixL a (a ++ b) = true := by
  induction a with
  | nil => rfl
  | cons x xs ih => simp [isPrefixL, ih]

lemma schemeSplit_https (x : List Char) :
    schemeSplit (("https").data ++ ("://").data ++ x) = some (("https").data, x) := by
  unfold schemeSplit
  rw [List.append_assoc]
  rw [show ("https").data ++ (("://").data ++ x) = ("https://").data ++ x from rfl]
  rw [if_pos (isPrefixL_append_self _ _)]
  rw [show (("https://").data ++ x).drop 8 = x from
    List.drop_left' (by rfl)]

lemma schemeSplit_http (x : List Char) :
    schemeSplit (("http").data ++ ("://").data ++ x) = some (("http").data, x) := by
  unfold schemeSplit
  rw [List.append_assoc]
  rw [show ("http").data ++ (("://").data ++ x) = ("http://").data ++ x from rfl]
  rw [if_neg (by simp [isPrefixL])]
  rw [if_pos (isPrefixL_append_self _ _)]
  rw [show (("http://").data ++ x).drop 7 = x from
    List.drop_left' (by rfl)]


lemma splitUserinfo_no_at (a : List Char) (h : '@' ∉ a) : splitUserinfo a = (none, a) := by
  unfold splitUserinfo
  rw [splitFirstC_not_mem _ _ h]

lemma splitUserinfo_at (u h : List Char) (hu : '@' ∉ u) :
    splitUserinfo (u ++ '@' :: h) = (some u, h) := by
  unfold splitUserinfo
  rw [splitFirstC_append _ _ _ hu]

lemma parseAuthPath_build (ui : Option (List Char)) (host p' : List Char)
    (hui : ∀ u, ui = some u → '/' ∉ u ∧ '@' ∉ u)
    (hh1 : '/' ∉ host) (hh2 : '@' ∉ host) :
    parseAuthPath (optUi ui ++ host ++ '/' :: p') = (ui, host, '/' :: p') := by
  have hslash : '/' ∉ optUi ui ++ host := by
    intro hm
    rcases List.mem_append.mp hm with hm | hm
    · cases hu : ui with
      | none => rw [hu] at hm; exact absurd hm (by simp [optUi])
      | some u =>
        rw [hu] at hm
        rcases List.mem_append.mp (show '/' ∈ u ++ ['@'] from hm) with hx | hx
        · exact (hui u hu).1 hx
        · exact absurd (List.mem_singleton.mp hx) (by decide)
    · exact hh1 hm
  have hsplit : splitFirstC '/' (optUi ui ++ host ++ '/' :: p')
      = (optUi ui ++ host, some p') := by
    rw [show optUi ui ++ host ++ '/' :: p' = (optUi ui ++ host) ++ '/' :: p' from by
      rw [List.append_assoc]]
    exact splitFirstC_append _ _ _ hslash
  have husplit : splitUserinfo (optUi ui ++ host) = (ui, host) := by
    cases ui with
    | none =>
      rw [show optUi none ++ host = host from by simp [optUi]]
      exact splitUserinfo_no_at host hh2
    | some u =>
      rw [show optUi (some u) ++ host = u ++ '@' :: host from by simp [optUi]]
      exact splitUserinfo_at u host (hui u rfl).2
  unfold parseAuthPath
  simp only [hsplit, husplit]

lemma parseUrl_build (scheme : List Char) (ui : Option (List Char)) (host p' q f : List Char)
    (hscheme : scheme = ("https").data ∨ scheme = ("http").data)
    (hui : ∀ u, ui = some u → '/' ∉ u ∧ '@' ∉ u ∧ '#' ∉ u ∧ '?' ∉ u)
    (hh : '/' ∉ host ∧ '@' ∉ host ∧ '#' ∉ host ∧ '?' ∉ host)
    (hp : '#' ∉ p' ∧ '?' ∉ p')
    (hq : '#' ∉ q)
    (hchecks : urlChecksOk ui host ('/' :: p') q f = true) :
    parseUrl (scheme ++ ("://").data ++ optUi ui ++ host ++ '/' :: p' ++ optQ q ++ optF f)
      = some ⟨scheme, ui, host, '/' :: p', q, f⟩ := by
  have hbase : ∀ c, c ∈ scheme ++ ("://").data ++ optUi ui ++ host ++ '/' :: p'
      → ¬c = '#' ∧ ¬c = '?' := by
    intro c hc
    rcases List.mem_append.mp hc with hc | hc
    · rcases List.mem_append.mp hc with hc | hc
      · rcases List.mem_append.mp hc with hc | hc
        · rcases List.mem_append.mp hc with hc | hc
          · rcases hscheme with rfl | rfl
            · constructor <;> (rintro rfl; revert hc; decide)
            · constructor <;> (rintro rfl; revert hc; decide)
          · constructor <;> (rintro rfl; revert hc; decide)
        · cases hu : ui with
          | none => rw [hu] at hc; exact absurd hc (by simp [optUi])
          | some u =>
            rw [hu] at hc
            obtain ⟨_, _, hu3, hu4⟩ := hui u hu
            rcases List.mem_append.mp (show c ∈ u ++ ['@'] from hc) with hx | hx
            · constructor <;> (rintro rfl; first | exact hu3 hx | exact hu4 hx)
            · rcases List.mem_singleton.mp hx with rfl
              constructor <;> decide
      · constructor <;> (rintro rfl; first | exact hh.2.2.1 hc | exact hh.2.2.2 hc)
    · rcases List.mem_cons.mp hc with rfl | hc
      · constructor <;> decide
      · constructor <;> (rintro rfl; first | exact hp.1 hc | exact hp.2 hc)
  have hbase_hash : '#' ∉ scheme ++ ("://").data ++ optUi ui ++ host ++ '/' :: p' :=
    fun hm => (hbase _ hm).1 rfl
  have hbase_q : '?' ∉ scheme ++ ("://").data ++ optUi ui ++ host ++ '/' :: p' :=
    fun hm => (hbase _ hm).2 rfl
  have hbh : '#' ∉ scheme ++ ("://").data ++ optUi ui ++ host ++ '/' :: p' ++ optQ q := by
    intro hm
    rcases List.mem_append.mp hm with hm | hm
    · exact hbase_hash hm
    · rcases mem_optQ _ _ hm with hm | hm
      · exact absurd hm (by decide)
      · exact hq hm
  have hsp1 : splitFirstC '#'
      (scheme ++ ("://").data ++ optUi ui ++ host ++ '/' :: p' ++ optQ q ++ optF f)
      = (scheme ++ ("://").data ++ optUi ui ++ host ++ '/' :: p' ++ optQ q,
          if f = [] then none else some f) := by
    by_cases hf : f = []
    · subst hf
      rw [optF_nil, List.append_nil, splitFirstC_not_mem _ _ hbh, if_pos rfl]
    · rw [show optF f = '#' :: f from by simp [optF, hf]]
      rw [splitFirstC_append _ _ _ hbh, if_neg hf]
  have hsp2 : splitFirstC '?' (scheme ++ ("://").data ++ optUi ui ++ host ++ '/' :: p' ++ optQ q)
      = (scheme ++ ("://").data ++ optUi ui ++ host ++ '/' :: p',
          if q = [] then none else some q) := by
    by_cases hqe : q = []
    · subst hqe
      rw [optQ_nil, List.append_nil, splitFirstC_not_mem _ _ hbase_q, if_pos rfl]
    · rw [show optQ q = '?' :: q from by simp [optQ, hqe]]
      rw [splitFirstC_append _ _ _ hbase_q, if_neg hqe]
  have hsch : schemeSplit (scheme ++ ("://").data ++ optUi ui ++ host ++ '/' :: p')
      = some (scheme, optUi ui ++ host ++ '/' :: p') := by
    rw [show scheme ++ ("://").data ++ optUi ui ++ host ++ '/' :: p'
        = scheme ++ ("://").data ++ (optUi ui ++ host ++ '/' :: p') from by
          simp [List.append_assoc]]
    rcases hscheme with rfl | rfl
    · exact schemeSplit_https _
    · exact schemeSplit_http _
  have hap := parseAuthPath_build ui host p'
    (fun u hu => ⟨(hui u hu).1, (hui u hu).2.1⟩) hh.1 hh.2.1
  have hgq : (if q = [] then (none : Option (List Char)) else some q).getD [] = q := by
    by_cases hqe : q = [] <;> simp [hqe]
  have hgf : (if f = [] then (none : Option (List Char)) else some f).getD [] = f := by
    by_cases hf : f = [] <;> simp [hf]
  unfold parseUrl
  simp only [hsp1, hsp2, hsch, hap, hgq, hgf]
  rw [if_pos hchecks]

end Utm

namespace Utm

lemma schemeSplit_scheme (bq : List Char) (sr : List Char × List Char)
    (h : schemeSplit bq = some sr) :
    sr.1 = ("https").data ∨ sr.1 = ("http").data := by
  unfold schemeSplit at h
  split at h
  · left
    cases h
    rfl
  · split at h
    · right
      cases h
      rfl
    · exact Option.noConfusion h

lemma parseAuthPath_path (rest : List Char) (t : Option (List Char) × List Char × List Char)
    (h : parseAuthPath rest = t) : ∃ p', t.2.2 = '/' :: p' := by
  unfold parseAuthPath at h
  rcases hsp : splitFirstC '/' rest with ⟨auth, pathO⟩
  rw [hsp] at h
  cases pathO with
  | none =>
    cases h
    exact ⟨[], rfl⟩
  | some p =>
    cases h
    exact ⟨p, rfl⟩

lemma parseUrl_shape (s : List Char) (u : Url) (h : parseUrl s = some u) :
    (u.scheme = ("https").data ∨ u.scheme = ("http").data)
      ∧ urlChecksOk u.userinfo u.host u.path u.query u.fragment = true
      ∧ ∃ p', u.path = '/' :: p' := by
  unfold parseUrl at h
  rcases hsp1 : splitFirstC '#' s with ⟨bh, fragO⟩
  simp only [hsp1] at h
  rcases hsp2 : splitFirstC '?' bh with ⟨bq, queryO⟩
  simp only [hsp2] at h
  cases hsch : schemeSplit bq with
  | none =>
    simp only [hsch] at h
    exact Option.noConfusion h
  | some sr =>
    simp only [hsch] at h
    rcases sr with ⟨scheme, rest⟩
    rcases hap : parseAuthPath rest with ⟨ui, hostPath⟩
    rcases hostPath with ⟨host, path⟩
    simp only [hap] at h
    split at h
    · rename_i hchecks
      cases h
      refine ⟨schemeSplit_scheme bq _ hsch, hchecks, ?_⟩
      exact parseAuthPath_path rest _ hap
    · exact Option.noConfusion h

/-! ### Consequences of the component checks -/

lemma urlChecksOk_parts (ui : Option (List Char)) (host path query frag : List Char)
    (h : urlChecksOk ui host path query frag = true) :
    host ≠ [] ∧ host.all hostOkC = true
      ∧ (∀ u, ui = some u → u ≠ [] ∧ u.all userinfoOkC = true)
      ∧ path.all pathOkC = true ∧ noDotSeg path = true
      ∧ query.all queryOkC = true ∧ frag.all fragOkC = true := by
  unfold urlChecksOk at h
  simp only [Bool.and_eq_true] at h
  obtain ⟨⟨⟨⟨⟨⟨h1, h2⟩, h3⟩, h4⟩, h5⟩, h6⟩, h7⟩ := h
  refine ⟨by simpa using h1, h2, ?_, h4, h5, h6, h7⟩
  intro x hx
  rw [hx] at h3
  simpa using h3

lemma all_imp_not_mem (s : List Char) (p : Char → Bool) (c : Char)
    (h : s.all p = true) (hc : p c = false) : c ∉ s :=
  not_mem_of_all_not s p h c hc

lemma host_not_mem (host : List Char) (h : host.all hostOkC = true) :
    '/' ∉ host ∧ '@' ∉ host ∧ '#' ∉ host ∧ '?' ∉ host :=
  ⟨all_imp_not_mem _ _ _ h (by decide), all_imp_not_mem _ _ _ h (by decide),
    all_imp_not_mem _ _ _ h (by decide), all_imp_not_mem _ _ _ h (by decide)⟩

lemma userinfo_not_mem (x : List Char) (h : x.all userinfoOkC = true) :
    '/' ∉ x ∧ '@' ∉ x ∧ '#' ∉ x ∧ '?' ∉ x :=
  ⟨all_imp_not_mem _ _ _ h (by decide), all_imp_not_mem _ _ _ h (by decide),
    all_imp_not_mem _ _ _ h (by decide), all_imp_not_mem _ _ _ h (by decide)⟩

lemma path_not_mem (x : List Char) (h : x.all pathOkC = true) :
    '#' ∉ x ∧ '?' ∉ x :=
  ⟨all_imp_not_mem _ _ _ h (by decide), all_imp_not_mem _ _ _ h (by decide)⟩

lemma query_not_mem_hash (x : List Char) (h : x.all queryOkC = true) : '#' ∉ x :=
  all_imp_not_mem _ _ _ h (by decide)

end Utm

namespace Utm

/-! ### Store lookup after insertion -/

lemma lookupL_map_set (l : Store) (k v : List Char)
    (h : l.any (fun e => e.1 = k) = true) :
    lookupL k (l.map (fun e => if e.1 = k then (k, v) else e)) = some v := by
  induction l with
  | nil => simp at h
  | cons e r ih =>
    rw [List.map_cons]
    by_cases hek : e.1 = k
    · rw [if_pos hek]
      simp [lookupL]
    · rw [if_neg hek]
      rw [show lookupL k (e :: r.map (fun e => if e.1 = k then (k, v) else e))
          = lookupL k (r.map (fun e => if e.1 = k then (k, v) else e)) from by
        simp [lookupL, hek]]
      apply ih
      rcases List.any_eq_true.mp h with ⟨x, hx, hxk⟩
      rcases List.mem_cons.mp hx with rfl | hx
      · exact absurd (by simpa using hxk) hek
      · exact List.any_eq_true.mpr ⟨x, hx, hxk⟩

lemma lookupL_append_single (l : Store) (k v : List Char)
    (h : l.any (fun e => e.1 = k) = false) :
    lookupL k (l ++ [(k, v)]) = some v := by
  induction l with
  | nil => simp [lookupL]
  | cons e r ih =>
    rw [List.any_cons] at h
    rcases Bool.or_eq_false_iff.mp h with ⟨h1, h2⟩
    rw [List.cons_append]
    rw [show lookupL k (e :: (r ++ [(k, v)])) = lookupL k (r ++ [(k, v)]) from by
      simp [lookupL, show ¬e.1 = k from by simpa using h1]]
    exact ih h2

lemma lookupL_objInsert (l : Store) (k v : List Char) :
    lookupL k (objInsert l k v) = some v := by
  unfold objInsert
  split
  · rename_i h
    exact lookupL_map_set l k v h
  · rename_i h
    exact lookupL_append_single l k v (Bool.eq_false_iff.mpr h)

lemma convert_foldl_none (f : KeyFormat) (p : ParamsO) (h : ∀ e ∈ p, e.2 = none) :
    ∀ acc : ParamsO, p.foldl (convertStep f) acc = acc := by
  induction p with
  | nil => exact fun acc => rfl
  | cons e r ih =>
    intro acc
    rw [List.foldl_cons]
    rw [show convertStep f acc e = acc from by
      unfold convertStep
      rw [h e (List.mem_cons_self _ _)]]
    exact ih (fun x hx => h x (List.mem_cons_of_mem _ hx)) acc

end Utm

namespace Utm

/-! ### Claim C6 -/

/-- Claim C6: for every slot whose stored string fails JSON deserialization,
or deserializes to a value failing structural validation (not a plain object,
non-UTM keys, or non-string values), `getStoredUtmParameters` returns `none`
(absent) — it is a total function that never returns partial or garbage
data. -/
theorem getStored_corrupt_eq_none (store : Store) (slot s : List Char)
    (fmt : Option KeyFormat)
    (hs : lookupL slot store = some s)
    (h : parseJson s = none ∨ ∀ j, parseJson s = some j → isValidStoredData j = false) :
    getStoredUtmParameters slot fmt store = none := by
  unfold getStoredUtmParameters
  simp only [hs]
  cases hp : parseJson s with
  | none => rfl
  | some j =>
    rcases h with h | h
    · rw [h] at hp
      exact Option.noConfusion hp
    · simp [h j hp]

/-- Witness for C6 at a concrete corrupt slot. -/
theorem getStored_corrupt_eq_none_witness :
    getStoredUtmParameters DEFAULT_STORAGE_KEY none
      [(DEFAULT_STORAGE_KEY, ("not json").data)] = none :=
  getStored_corrupt_eq_none _ _ (("not json").data) _ rfl (Or.inl rfl)

/-! ### Claim C10 -/

/-- Claim C10: a parameter set with at least one key but only undefined
values is not empty by key count, so `storeUtmParameters` proceeds, and the
format conversion drops every entry: the slot is overwritten with the string
of an empty object. -/
theorem store_allUndefined_writes_empty (params : ParamsO) (slot : List Char)
    (fmt : KeyFormat) (store : Store)
    (hne : params ≠ []) (hall : ∀ e ∈ params, e.2 = none) :
    storeUtmParameters params slot fmt store = objInsert store slot [lbraceC, rbraceC]
      ∧ lookupL slot (storeUtmParameters params slot fmt store)
          = some [lbraceC, rbraceC] := by
  have hmain : storeUtmParameters params slot fmt store
      = objInsert store slot [lbraceC, rbraceC] := by
    unfold storeUtmParameters
    rw [if_neg (by simp [hne])]
    rw [show convertParams params fmt = [] from convert_foldl_none fmt params hall []]
    rfl
  exact ⟨hmain, by rw [hmain]; exact lookupL_objInsert store slot _⟩

end Utm

namespace Utm

/-- Witness for C10 at a concrete all-undefined parameter set. -/
theorem store_allUndefined_writes_empty_witness :
    storeUtmParameters [(("utm_source").data, none)] DEFAULT_STORAGE_KEY .snake_case []
        = objInsert [] DEFAULT_STORAGE_KEY [lbraceC, rbraceC]
      ∧ lookupL DEFAULT_STORAGE_KEY
          (storeUtmParameters [(("utm_source").data, none)] DEFAULT_STORAGE_KEY
            .snake_case []) = some [lbraceC, rbraceC] :=
  store_allUndefined_writes_empty [(("utm_source").data, none)] DEFAULT_STORAGE_KEY
    .snake_case [] (by decide) (by decide)

end Utm

namespace Utm

/-! ### Claim C9 -/

lemma base_not_mem (u : Url)
    (hscheme : u.scheme = ("https").data ∨ u.scheme = ("http").data)
    (hhost : u.host.all hostOkC = true) (hpath : u.path.all pathOkC = true) :
    '#' ∉ u.scheme ++ ("://").data ++ u.host ++ u.path
      ∧ '?' ∉ u.scheme ++ ("://").data ++ u.host ++ u.path := by
  have hmain : ∀ c, c ∈ u.scheme ++ ("://").data ++ u.host ++ u.path
      → ¬c = '#' ∧ ¬c = '?' := by
    intro c hc
    rcases List.mem_append.mp hc with hc | hc
    · rcases List.mem_append.mp hc with hc | hc
      · rcases List.mem_append.mp hc with hc | hc
        · rcases hscheme with hs | hs <;> rw [hs] at hc <;>
            constructor <;> (rintro rfl; revert hc; decide)
        · constructor <;> (rintro rfl; revert hc; decide)
      · exact ⟨fun he => (host_not_mem _ hhost).2.2.1 (he ▸ hc),
          fun he => (host_not_mem _ hhost).2.2.2 (he ▸ hc)⟩
    · exact ⟨fun he => (path_not_mem _ hpath).1 (he ▸ hc),
        fun he => (path_not_mem _ hpath).2 (he ▸ hc)⟩
  exact ⟨fun hm => (hmain _ hm).1 rfl, fun hm => (hmain _ hm).2 rfl⟩

lemma appendUtm_query_eq (url : List Char) (p : ParamsO) (pe : Bool) (u : Url)
    (hu : parseUrl url = some u) (hv : hasValidUtmEntries p = true) :
    appendUtmParameters url p false pe = appendToQuery u (toSnakeCaseParams p) pe := by
  unfold appendUtmParameters
  simp [hv, hu]

lemma appendUtm_fragment_eq (url : List Char) (p : ParamsO) (pe : Bool) (u : Url)
    (hu : parseUrl url = some u) (hv : hasValidUtmEntries p = true) :
    appendUtmParameters url p true pe = appendToFragment u (toSnakeCaseParams p) pe := by
  unfold appendUtmParameters
  simp [hv, hu]

lemma appendToQuery_parts (u : Url) (sp : ParamsO) (pe : Bool)
    (hscheme : u.scheme = ("https").data ∨ u.scheme = ("http").data)
    (hhost : u.host.all hostOkC = true) (hpath : u.path.all pathOkC = true) :
    queryPart (appendToQuery u sp pe)
        = buildQueryString (applyParams pe sp (parsePairs u.query))
      ∧ fragmentPart (appendToQuery u sp pe) = fragCleanup u (paramsNames sp) := by
  obtain ⟨hb1, hb2⟩ := base_not_mem u hscheme hhost hpath
  constructor
  · exact queryPart_build _ _ _ hb1 hb2 (hash_not_mem_buildQueryString _)
  · exact fragmentPart_build _ _ _ hb1 (hash_not_mem_buildQueryString _)

/-- Claim C9: with query placement, the result URL is rebuilt from only
protocol, host, pathname, query and fragment, so a userinfo component present
in the parsed input URL is dropped from the result. -/
theorem appendQuery_drops_userinfo (url : List Char) (p : ParamsO) (pe : Bool)
    (u : Url) (ui : List Char)
    (hu : parseUrl url = some u) (hui : u.userinfo = some ui)
    (hv : hasValidUtmEntries p = true) :
    appendUtmParameters url p false pe
      = serializeUrl ⟨u.scheme, none, u.host, u.path,
          queryPart (appendUtmParameters url p false pe),
          fragmentPart (appendUtmParameters url p false pe)⟩ := by
  obtain ⟨hscheme, hchecks, p', hpath⟩ := parseUrl_shape url u hu
  obtain ⟨_, hhost, _, hpathall, _, _, _⟩ := urlChecksOk_parts _ _ _ _ _ hchecks
  have happ := appendUtm_query_eq url p pe u hu hv
  obtain ⟨hqp, hfp⟩ := appendToQuery_parts u (toSnakeCaseParams p) pe hscheme hhost hpathall
  rw [happ, hqp, hfp]
  unfold appendToQuery serializeUrl optUi
  simp [List.append_assoc]

/-- Witness for C9 at a concrete URL with credentials. -/
theorem appendQuery_drops_userinfo_witness :
    appendUtmParameters (("https://u:p@example.com/a").data)
        [(("utm_source").data, some (("x").data))] false false
      = serializeUrl
          ⟨("https").data, none, ("example.com").data, ("/a").data,
            queryPart (appendUtmParameters (("https://u:p@example.com/a").data)
              [(("utm_source").data, some (("x").data))] false false),
            fragmentPart (appendUtmParameters (("https://u:p@example.com/a").data)
              [(("utm_source").data, some (("x").data))] false false)⟩ :=
  appendQuery_drops_userinfo _ _ false
    ⟨("https").data, some (("u:p").data), ("example.com").data, ("/a").data, [], []⟩
    (("u:p").data) rfl rfl rfl

end Utm

namespace Utm

/-! ### Claim C4 -/

lemma mem_names_objInsert (acc : ParamsO) (k : List Char) (v : Option (List Char))
    (x : List Char) :
    x ∈ paramsNames (objInsert acc k v) ↔ x ∈ paramsNames acc ∨ x = k := by
  cases hmem : acc.any (fun e => e.1 = k) with
  | true =>
    rw [paramsNames_objInsert_mem _ _ _ hmem]
    constructor
    · exact Or.inl
    · rintro (h | rfl)
      · exact h
      · exact (any_names_iff acc x).mp hmem
  | false =>
    rw [paramsNames_objInsert_not_mem _ _ _ hmem]
    rw [List.mem_append, List.mem_singleton]

lemma captureStep_names (aset : Option (List (List Char))) (acc : ParamsO)
    (e : List Char × List Char) (k : List Char) :
    k ∈ paramsNames (captureStep aset acc e)
      ↔ k ∈ paramsNames acc
        ∨ (k = e.1 ∧ isSnakeCaseUtmKey e.1 = true ∧ ∀ l, aset = some l → e.1 ∈ l) := by
  cases aset with
  | none =>
    by_cases hsnake : isSnakeCaseUtmKey e.1 = true
    · simp only [captureStep, if_pos hsnake]
      rw [mem_names_objInsert]
      constructor
      · rintro (h | rfl)
        · exact Or.inl h
        · exact Or.inr ⟨rfl, hsnake, fun l hl => Option.noConfusion hl⟩
      · rintro (h | ⟨rfl, _, _⟩)
        · exact Or.inl h
        · exact Or.inr rfl
    · simp only [captureStep, if_neg hsnake]
      constructor
      · exact Or.inl
      · rintro (h | ⟨rfl, hs, _⟩)
        · exact h
        · exact absurd hs hsnake
  | some l =>
    by_cases hsnake : isSnakeCaseUtmKey e.1 = true
    · by_cases hcont : l.contains e.1 = true
      · simp only [captureStep, if_pos hsnake, if_pos hcont]
        rw [mem_names_objInsert]
        constructor
        · rintro (h | rfl)
          · exact Or.inl h
          · exact Or.inr ⟨rfl, hsnake,
              fun l' hl' => by cases hl'; exact List.elem_iff.mp hcont⟩
        · rintro (h | ⟨rfl, _, _⟩)
          · exact Or.inl h
          · exact Or.inr rfl
      · simp only [captureStep, if_pos hsnake, if_neg hcont]
        constructor
        · exact Or.inl
        · rintro (h | ⟨rfl, _, hall⟩)
          · exact h
          · exact absurd (List.elem_iff.mpr (hall l rfl)) hcont
    · simp only [captureStep, if_neg hsnake]
      constructor
      · exact Or.inl
      · rintro (h | ⟨rfl, hs, _⟩)
        · exact h
        · exact absurd hs hsnake

lemma captureFold_mem (aset : Option (List (List Char))) (qp : Pairs) :
    ∀ (acc : ParamsO) (k : List Char),
      k ∈ paramsNames (qp.foldl (captureStep aset) acc)
        ↔ k ∈ paramsNames acc
          ∨ (k ∈ qp.map (fun e => e.1) ∧ isSnakeCaseUtmKey k = true
              ∧ ∀ l, aset = some l → k ∈ l) := by
  induction qp with
  | nil =>
    intro acc k
    simp
  | cons e r ih =>
    intro acc k
    rw [List.foldl_cons, ih, captureStep_names, List.map_cons]
    constructor
    · rintro ((h | ⟨rfl, hs, hall⟩) | ⟨hm, hs, hall⟩)
      · exact Or.inl h
      · exact Or.inr ⟨List.mem_cons_self _ _, hs, hall⟩
      · exact Or.inr ⟨List.mem_cons_of_mem _ hm, hs, hall⟩
    · rintro (h | ⟨hm, hs, hall⟩)
      · exact Or.inl (Or.inl h)
      · rcases List.mem_cons.mp hm with h | h
        · subst h
          exact Or.inl (Or.inr ⟨rfl, hs, hall⟩)
        · exact Or.inr ⟨h, hs, hall⟩

/-- The claim C4 as stated is false: an empty allowlist does not filter.
Capturing `utm_source` with `allowedParameters = []` still includes the key,
although it is not a member of the empty allowlist. -/
theorem capture_empty_allowlist_counterexample :
    captureUtmParameters (("https://example.com/?utm_source=x").data) .snake_case (some [])
        = [((("utm_source").data), some (("x").data))]
      ∧ (("utm_source").data) ∉ ([] : List (List Char)) := by
  constructor
  · decide
  · decide

/-- Claim C4 (amended): with the wire-format result, a query key is included
iff it satisfies the underscore-convention predicate and, whenever a
NON-EMPTY allowlist is given, the key is a member of it; an empty allowlist
is treated as if no allowlist were given. -/
theorem capture_filter_iff (url : List Char) (allow : Option (List (List Char)))
    (u : Url) (k : List Char) (hne : url ≠ []) (hu : parseUrl url = some u) :
    k ∈ paramsNames (captureUtmParameters url .snake_case allow)
      ↔ k ∈ (parsePairs u.query).map (fun e => e.1)
          ∧ isSnakeCaseUtmKey k = true
          ∧ ∀ l, allow = some l → l ≠ [] → k ∈ l := by
  unfold captureUtmParameters
  rw [if_neg hne]
  simp only [hu]
  rw [captureFold_mem]
  have hnames : k ∈ paramsNames ([] : ParamsO) ↔ False := by simp [paramsNames]
  rw [hnames]
  rw [false_or]
  constructor
  · rintro ⟨hm, hs, hall⟩
    refine ⟨hm, hs, ?_⟩
    intro l hl hlne
    apply hall
    rw [hl]
    show (if 0 < l.length then some l else none) = some l
    rw [if_pos (by simpa [List.length_pos] using hlne)]
  · rintro ⟨hm, hs, hall⟩
    refine ⟨hm, hs, ?_⟩
    intro l hl
    cases hao : allow with
    | none => rw [hao] at hl; exact Option.noConfusion hl
    | some l0 =>
      rw [hao] at hl
      have hl2 : (if 0 < l0.length then some l0 else none) = some l := hl
      by_cases hl0 : 0 < l0.length
      · rw [if_pos hl0] at hl2
        cases hl2
        exact hall _ hao (by simpa [← List.length_pos] using hl0)
      · rw [if_neg hl0] at hl2
        exact Option.noConfusion hl2

/-- Witness for the amended C4 at a concrete URL and a nonempty allowlist. -/
theorem capture_filter_iff_witness :
    (("utm_source").data) ∈ paramsNames
        (captureUtmParameters (("https://example.com/?utm_source=x&utm_term=y").data)
          .snake_case (some [("utm_source").data]))
      ↔ (("utm_source").data)
            ∈ (parsePairs (("utm_source=x&utm_term=y").data)).map (fun e => e.1)
          ∧ isSnakeCaseUtmKey (("utm_source").data) = true
          ∧ ∀ l, (some [("utm_source").data] : Option (List (List Char))) = some l
              → l ≠ [] → (("utm_source").data) ∈ l :=
  capture_filter_iff (("https://example.com/?utm_source=x&utm_term=y").data)
    (some [("utm_source").data])
    ⟨("https").data, none, ("example.com").data, ("/").data,
      ("utm_source=x&utm_term=y").data, []⟩
    (("utm_source").data) (by decide) rfl

end Utm

namespace Utm

/-! ### Claim C1: word-shaped keys and the conversion round trip -/

lemma lc_isLower : ∀ c ∈ lowercaseLetters, isLowerAlpha c = true := by decide

lemma lc_notUpper : ∀ c ∈ lowercaseLetters, isUpperAlpha c = false := by decide

lemma lc_lower_upper : ∀ c ∈ lowercaseLetters, lowerC (upperC c) = c := by decide

lemma lc_upper_isUpper : ∀ c ∈ lowercaseLetters, isUpperAlpha (upperC c) = true := by decide

lemma lc_ne_underscore : ∀ c ∈ lowercaseLetters, ¬c = '_' := by decide

lemma lc_lower_self : ∀ c ∈ lowercaseLetters, lowerC c = c := by decide

lemma camelize_cons_ne (c : Char) (t : List Char) (h : ¬c = '_') :
    camelize (c :: t) = c :: camelize t := by
  rw [camelize.eq_def]
  split <;> simp_all

lemma camelize_word (w t : List Char) (hw : ∀ c ∈ w, c ∈ lowercaseLetters) :
    camelize (w ++ t) = w ++ camelize t := by
  induction w with
  | nil => rfl
  | cons c r ih =>
    rw [List.cons_append,
      camelize_cons_ne _ _ (lc_ne_underscore c (hw c (List.mem_cons_self _ _))),
      ih (fun x hx => hw x (List.mem_cons_of_mem _ hx))]
    rfl

lemma camelize_underscore_cons (c : Char) (r : List Char) :
    camelize ('_' :: c :: r)
      = if isLowerAlpha c then upperC c :: camelize r else '_' :: camelize (c :: r) := by
  rw [camelize.eq_def]
  split
  · simp_all
  · simp_all
  · rename_i hno heq
    injection heq with h1 h2
    exact absurd h2.symm (hno c r h1.symm)

lemma camelize_underscore_word (v ts : List Char) (hv : lowerWord v) :
    camelize ('_' :: (v ++ ts)) = upperFirst v ++ camelize ts := by
  obtain ⟨hne, hall⟩ := hv
  cases v with
  | nil => exact absurd rfl hne
  | cons c t =>
    rw [List.cons_append, camelize_underscore_cons,
      if_pos (lc_isLower c (hall c (List.mem_cons_self _ _)))]
    rw [camelize_word t ts (fun x hx => hall x (List.mem_cons_of_mem _ hx))]
    rfl

lemma camelize_tail (ws : List (List Char)) (hne : ws ≠ [])
    (hws : ∀ w ∈ ws, lowerWord w) :
    camelize ('_' :: intercalateC '_' ws) = camelCat ws := by
  induction ws with
  | nil => exact absurd rfl hne
  | cons v vs ih =>
    cases vs with
    | nil =>
      rw [show intercalateC '_' [v] = v ++ [] from by simp [intercalateC]]
      rw [camelize_underscore_word v [] (hws v (List.mem_cons_self _ _))]
      simp [camelCat, camelize]
    | cons y ys =>
      rw [intercalateC_cons _ _ _ (by simp)]
      rw [camelize_underscore_word v _ (hws v (List.mem_cons_self _ _))]
      rw [ih (by simp) (fun w hw => hws w (List.mem_cons_of_mem _ hw))]
      simp [camelCat]

lemma upperFirst_camelize_intercalate (ws : List (List Char)) (hne : ws ≠ [])
    (hws : ∀ w ∈ ws, lowerWord w) :
    upperFirst (camelize (intercalateC '_' ws)) = camelCat ws := by
  cases ws with
  | nil => exact absurd rfl hne
  | cons w rest =>
    obtain ⟨hwne, hwall⟩ := hws w (List.mem_cons_self _ _)
    cases rest with
    | nil =>
      rw [show intercalateC '_' [w] = w ++ [] from by simp [intercalateC]]
      rw [camelize_word w [] hwall]
      cases w with
      | nil => exact absurd rfl hwne
      | cons c t => simp [upperFirst, camelCat, camelize]
    | cons y ys =>
      rw [intercalateC_cons _ _ _ (by simp)]
      rw [camelize_word w _ hwall]
      rw [camelize_tail (y :: ys) (by simp) (fun x hx => hws x (List.mem_cons_of_mem _ hx))]
      cases w with
      | nil => exact absurd rfl hwne
      | cons c t => simp [upperFirst, camelCat]

lemma expandUpper_cons (c : Char) (r : List Char) :
    expandUpper (c :: r)
      = if isUpperAlpha c then '_' :: c :: expandUpper r else c :: expandUpper r := rfl

lemma expandUpper_append (a b : List Char) :
    expandUpper (a ++ b) = expandUpper a ++ expandUpper b := by
  induction a with
  | nil => rfl
  | cons c r ih =>
    rw [List.cons_append, expandUpper_cons, expandUpper_cons]
    by_cases hc : isUpperAlpha c = true
    · rw [if_pos hc, if_pos hc, ih]
      rfl
    · rw [if_neg hc, if_neg hc, ih]
      rfl

lemma expandUpper_lower_word (w : List Char) (hw : ∀ c ∈ w, c ∈ lowercaseLetters) :
    expandUpper w = w := by
  induction w with
  | nil => rfl
  | cons c r ih =>
    rw [expandUpper_cons]
    rw [if_neg (by rw [lc_notUpper c (hw c (List.mem_cons_self _ _))]; simp)]
    rw [ih (fun x hx => hw x (List.mem_cons_of_mem _ hx))]

lemma map_lowerC_word (w : List Char) (hw : ∀ c ∈ w, c ∈ lowercaseLetters) :
    w.map lowerC = w := by
  induction w with
  | nil => rfl
  | cons c r ih =>
    rw [List.map_cons, lc_lower_self c (hw c (List.mem_cons_self _ _)),
      ih (fun x hx => hw x (List.mem_cons_of_mem _ hx))]

lemma expand_camelCat (ws : List (List Char)) (hws : ∀ w ∈ ws, lowerWord w) :
    (expandUpper (camelCat ws)).map lowerC = (ws.map (fun w => '_' :: w)).flatten := by
  induction ws with
  | nil => rfl
  | cons w rest ih =>
    obtain ⟨hwne, hwall⟩ := hws w (List.mem_cons_self _ _)
    cases w with
    | nil => exact absurd rfl hwne
    | cons c t =>
      rw [show camelCat ((c :: t) :: rest) = (upperC c :: t) ++ camelCat rest from by
        simp [camelCat, upperFirst]]
      rw [expandUpper_append]
      rw [show expandUpper (upperC c :: t) = '_' :: upperC c :: t from by
        rw [expandUpper_cons]
        rw [if_pos (lc_upper_isUpper c (hwall c (List.mem_cons_self _ _)))]
        rw [expandUpper_lower_word t (fun x hx => hwall x (List.mem_cons_of_mem _ hx))]]
      rw [List.map_append, List.map_cons, List.map_cons]
      rw [show lowerC '_' = '_' from by decide]
      rw [lc_lower_upper c (hwall c (List.mem_cons_self _ _))]
      rw [map_lowerC_word t (fun x hx => hwall x (List.mem_cons_of_mem _ hx))]
      rw [ih (fun x hx => hws x (List.mem_cons_of_mem _ hx))]
      simp

lemma flatten_underscore_words (ws : List (List Char)) (hne : ws ≠ []) :
    (ws.map (fun w => '_' :: w)).flatten = '_' :: intercalateC '_' ws := by
  induction ws with
  | nil => exact absurd rfl hne
  | cons w rest ih =>
    cases rest with
    | nil => simp [intercalateC]
    | cons y ys =>
      rw [intercalateC_cons _ _ _ (by simp)]
      rw [List.map_cons, List.flatten_cons, ih (by simp)]
      simp

lemma camelCat_ne_nil (ws : List (List Char)) (hne : ws ≠ [])
    (hws : ∀ w ∈ ws, lowerWord w) : camelCat ws ≠ [] := by
  cases ws with
  | nil => exact absurd rfl hne
  | cons w rest =>
    obtain ⟨hwne, _⟩ := hws w (List.mem_cons_self _ _)
    cases w with
    | nil => exact absurd rfl hwne
    | cons c t => simp [camelCat, upperFirst]

end Utm

namespace Utm

lemma toCamelCase_custom (s : List Char) (hne : s ≠ []) :
    toCamelCase (("utm_").data ++ s) = ("utm").data ++ upperFirst (camelize s) := by
  by_cases hs1 : s = ("source").data
  · subst hs1; decide
  by_cases hs2 : s = ("medium").data
  · subst hs2; decide
  by_cases hs3 : s = ("campaign").data
  · subst hs3; decide
  by_cases hs4 : s = ("term").data
  · subst hs4; decide
  by_cases hs5 : s = ("content").data
  · subst hs5; decide
  by_cases hs6 : s = ("id").data
  · subst hs6; decide
  unfold toCamelCase
  rw [show lookupL (("utm_").data ++ s) SNAKE_TO_CAMEL = none from by
    simp [lookupL, SNAKE_TO_CAMEL, Ne.symm hs1, Ne.symm hs2, Ne.symm hs3,
      Ne.symm hs4, Ne.symm hs5, Ne.symm hs6]]
  rw [if_pos (by
    rw [isPrefixL_append_self]
    simp only [Bool.true_and, decide_eq_true_eq, List.length_append]
    rw [show (("utm_").data).length = 4 from rfl]
    have := List.length_pos.mpr hne
    omega)]
  rw [show (("utm_").data ++ s).drop 4 = s from List.drop_left' (by rfl)]

lemma toSnakeCase_custom (s : List Char) (hne : s ≠ []) :
    toSnakeCase (("utm").data ++ s) = ("utm").data ++ (expandUpper s).map lowerC := by
  by_cases hs1 : s = ("Source").data
  · subst hs1; decide
  by_cases hs2 : s = ("Medium").data
  · subst hs2; decide
  by_cases hs3 : s = ("Campaign").data
  · subst hs3; decide
  by_cases hs4 : s = ("Term").data
  · subst hs4; decide
  by_cases hs5 : s = ("Content").data
  · subst hs5; decide
  by_cases hs6 : s = ("Id").data
  · subst hs6; decide
  unfold toSnakeCase
  rw [show lookupL (("utm").data ++ s) CAMEL_TO_SNAKE = none from by
    simp [lookupL, CAMEL_TO_SNAKE, Ne.symm hs1, Ne.symm hs2, Ne.symm hs3,
      Ne.symm hs4, Ne.symm hs5, Ne.symm hs6]]
  rw [if_pos (by
    rw [isPrefixL_append_self]
    simp only [Bool.true_and, decide_eq_true_eq, List.length_append]
    rw [show (("utm").data).length = 3 from rfl]
    have := List.length_pos.mpr hne
    omega)]
  rw [show (("utm").data ++ s).drop 3 = s from List.drop_left' (by rfl)]

lemma intercalate_words_ne_nil (ws : List (List Char)) (hne : ws ≠ [])
    (hws : ∀ w ∈ ws, lowerWord w) : intercalateC '_' ws ≠ [] := by
  cases ws with
  | nil => exact absurd rfl hne
  | cons w rest =>
    obtain ⟨hwne, _⟩ := hws w (List.mem_cons_self _ _)
    cases w with
    | nil => exact absurd rfl hwne
    | cons c t =>
      cases rest with
      | nil => simp [intercalateC]
      | cons y ys =>
        rw [intercalateC_cons _ _ _ (by simp)]
        simp

/-- The claim C1 as stated is false: `utm_A` matches the underscore-prefix
rule but does not round trip — it converts to `utmA` whose snake form is
`utm_a`. -/
theorem keyRoundTrip_counterexample :
    isSnakeCaseUtmKey (("utm_A").data) = true
      ∧ toCamelCase (("utm_A").data) = ("utmA").data
      ∧ toSnakeCase (toCamelCase (("utm_A").data)) = ("utm_a").data
      ∧ toSnakeCase (toCamelCase (("utm_A").data)) ≠ ("utm_A").data := by
  refine ⟨by decide, by decide, by decide, by decide⟩

/-- Claim C1 (amended): conversion is round-trip-stable on the supported
key shapes — snake keys `utm_` + lowercase-letter words joined by single
underscores, and camelCase keys `utm` + those words each capitalized
(standard and custom keys alike). -/
theorem keyRoundTrip_words (ws : List (List Char)) (hne : ws ≠ [])
    (hws : ∀ w ∈ ws, lowerWord w) :
    toSnakeCase (toCamelCase (("utm_").data ++ intercalateC '_' ws))
        = ("utm_").data ++ intercalateC '_' ws
      ∧ toCamelCase (toSnakeCase (("utm").data ++ camelCat ws))
        = ("utm").data ++ camelCat ws := by
  have hcam : toCamelCase (("utm_").data ++ intercalateC '_' ws)
      = ("utm").data ++ camelCat ws := by
    rw [toCamelCase_custom _ (intercalate_words_ne_nil ws hne hws)]
    rw [upperFirst_camelize_intercalate ws hne hws]
  have hsnake : toSnakeCase (("utm").data ++ camelCat ws)
      = ("utm_").data ++ intercalateC '_' ws := by
    rw [toSnakeCase_custom _ (camelCat_ne_nil ws hne hws)]
    rw [expand_camelCat ws hws, flatten_underscore_words ws hne]
    rfl
  exact ⟨by rw [hcam, hsnake], by rw [hsnake, hcam]⟩

/-- Witness for the amended C1 at the spec's own example `utm_team_id` /
`utmTeamId`. -/
theorem keyRoundTrip_words_witness :
    toSnakeCase (toCamelCase
        (("utm_").data ++ intercalateC '_' [("team").data, ("id").data]))
        = ("utm_").data ++ intercalateC '_' [("team").data, ("id").data]
      ∧ toCamelCase (toSnakeCase
          (("utm").data ++ camelCat [("team").data, ("id").data]))
        = ("utm").data ++ camelCat [("team").data, ("id").data] :=
  keyRoundTrip_words [("team").data, ("id").data] (by decide)
    (by
      intro w hw
      rcases List.mem_cons.mp hw with rfl | hw
      · exact ⟨by decide, by decide⟩
      · rcases List.mem_singleton.mp hw with rfl
        exact ⟨by decide, by decide⟩)

end Utm

namespace Utm

/-! ### Parts of serialized URLs and the fragment placement -/

lemma serBase_not_mem (u : Url)
    (hscheme : u.scheme = ("https").data ∨ u.scheme = ("http").data)
    (hui : ∀ x, u.userinfo = some x → x.all userinfoOkC = true)
    (hhost : u.host.all hostOkC = true) (hpath : u.path.all pathOkC = true) :
    '#' ∉ u.scheme ++ ("://").data ++ optUi u.userinfo ++ u.host ++ u.path
      ∧ '?' ∉ u.scheme ++ ("://").data ++ optUi u.userinfo ++ u.host ++ u.path := by
  have hmain : ∀ c, c ∈ u.scheme ++ ("://").data ++ optUi u.userinfo ++ u.host ++ u.path
      → ¬c = '#' ∧ ¬c = '?' := by
    intro c hc
    rcases List.mem_append.mp hc with hc | hc
    · rcases List.mem_append.mp hc with hc | hc
      · rcases List.mem_append.mp hc with hc | hc
        · rcases List.mem_append.mp hc with hc | hc
          · rcases hscheme with hs | hs <;> rw [hs] at hc <;>
              constructor <;> (rintro rfl; revert hc; decide)
          · constructor <;> (rintro rfl; revert hc; decide)
        · cases huis : u.userinfo with
          | none =>
            rw [huis] at hc
            exact absurd hc (List.not_mem_nil c)
          | some x =>
            rw [huis] at hc
            simp only [optUi] at hc
            rcases List.mem_append.mp hc with hc | hc
            · have hx := hui x huis
              exact ⟨fun he => (userinfo_not_mem x hx).2.2.1 (he ▸ hc),
                fun he => (userinfo_not_mem x hx).2.2.2 (he ▸ hc)⟩
            · have hat : c = '@' := List.mem_singleton.mp hc
              subst hat
              exact ⟨by decide, by decide⟩
      · exact ⟨fun he => (host_not_mem _ hhost).2.2.1 (he ▸ hc),
          fun he => (host_not_mem _ hhost).2.2.2 (he ▸ hc)⟩
    · exact ⟨fun he => (path_not_mem _ hpath).1 (he ▸ hc),
        fun he => (path_not_mem _ hpath).2 (he ▸ hc)⟩
  exact ⟨fun hm => (hmain _ hm).1 rfl, fun hm => (hmain _ hm).2 rfl⟩

lemma serializeUrl_parts (u : Url)
    (hscheme : u.scheme = ("https").data ∨ u.scheme = ("http").data)
    (hui : ∀ x, u.userinfo = some x → x.all userinfoOkC = true)
    (hhost : u.host.all hostOkC = true) (hpath : u.path.all pathOkC = true)
    (hq : '#' ∉ u.query) :
    queryPart (serializeUrl u) = u.query ∧ fragmentPart (serializeUrl u) = u.fragment := by
  obtain ⟨hb1, hb2⟩ := serBase_not_mem u hscheme hui hhost hpath
  unfold serializeUrl
  exact ⟨queryPart_build _ _ _ hb1 hb2 hq, fragmentPart_build _ _ _ hb1 hq⟩

lemma appendToFragment_parts (u : Url) (sp : ParamsO) (pe : Bool)
    (hscheme : u.scheme = ("https").data ∨ u.scheme = ("http").data)
    (hui : ∀ x, u.userinfo = some x → x.all userinfoOkC = true)
    (hhost : u.host.all hostOkC = true) (hpath : u.path.all pathOkC = true) :
    queryPart (appendToFragment u sp pe)
        = serializePairs (deleteKeys (paramsNames sp) (parsePairs u.query))
      ∧ fragmentPart (appendToFragment u sp pe)
        = buildQueryString (applyParams pe sp (parsePairs u.fragment)) := by
  unfold appendToFragment
  exact serializeUrl_parts _ hscheme hui hhost hpath (hash_not_mem_serializePairs _)

lemma mem_unwrapParams (p : ParamsO) (k v : List Char) (h : (k, some v) ∈ p) :
    (k, v) ∈ unwrapParams p := by
  unfold unwrapParams
  exact List.mem_filterMap.mpr ⟨(k, some v), h, rfl⟩

lemma bareKey_mem_buildQueryString (ps : Pairs) (k : List Char) (h : (k, []) ∈ ps) :
    encodeURIComponent k ∈ splitOnC '&' (buildQueryString ps) := by
  rw [buildQueryString_eq]
  rw [splitOnC_intercalateC '&' _
    (by
      intro hc
      rw [List.map_eq_nil_iff] at hc
      subst hc
      exact absurd h (List.not_mem_nil _))
    (fun s hs => by
      rcases List.mem_map.mp hs with ⟨a, _, rfl⟩
      exact amp_not_mem_buildSeg a)]
  exact List.mem_map.mpr ⟨(k, []), h, by simp [buildSeg]⟩

end Utm

namespace Utm

/-! ### Claim C5 -/

/-- The claim C5 as stated is false: a parameter set whose only UTM entry
carries the empty string has no valid entries, so `appendUtmParameters`
takes its fast path and returns the URL unchanged — the key is not rendered
at all, in either placement. -/
theorem emptyValue_fastPath_counterexample :
    (parseUrl (("https://example.com/").data)).isSome = true
      ∧ hasValidUtmEntries [((("utm_source").data), some [])] = false
      ∧ appendUtmParameters (("https://example.com/").data)
          [((("utm_source").data), some [])] false false
        = ("https://example.com/").data
      ∧ appendUtmParameters (("https://example.com/").data)
          [((("utm_source").data), some [])] true false
        = ("https://example.com/").data
      ∧ queryPart (("https://example.com/").data) = []
      ∧ fragmentPart (("https://example.com/").data) = [] := by
  refine ⟨by decide, by decide, by decide, by decide, by decide, by decide⟩

/-- Claim C5 (amended): when the parameter set does clear the valid-entry
gate, every key whose snake-converted entry carries the empty string is
rendered in the target component as a bare encoded key, with no `=` inside
that segment, in both query and fragment placement (`keepExisting=false`). -/
theorem emptyValue_bareKey (url : List Char) (p : ParamsO) (k : List Char) (u : Url)
    (hu : parseUrl url = some u)
    (hv : hasValidUtmEntries p = true)
    (hk : (k, some []) ∈ toSnakeCaseParams p) :
    (encodeURIComponent k
        ∈ splitOnC '&' (queryPart (appendUtmParameters url p false false))
      ∧ '=' ∉ encodeURIComponent k)
    ∧ (encodeURIComponent k
        ∈ splitOnC '&' (fragmentPart (appendUtmParameters url p true false))
      ∧ '=' ∉ encodeURIComponent k) := by
  obtain ⟨hscheme, hchecks, p', hpath⟩ := parseUrl_shape url u hu
  obtain ⟨_, hhost, huiok, hpathall, _, _, _⟩ := urlChecksOk_parts _ _ _ _ _ hchecks
  have hui : ∀ x, u.userinfo = some x → x.all userinfoOkC = true :=
    fun x hx => (huiok x hx).2
  have hmem : (k, []) ∈ unwrapParams (toSnakeCaseParams p) :=
    mem_unwrapParams _ _ _ hk
  have hnd : (paramsNames (toSnakeCaseParams p)).Nodup :=
    convertParams_nodup p KeyFormat.snake_case
  have hsm : ∀ e ∈ toSnakeCaseParams p, e.2 ≠ none :=
    convertParams_some p KeyFormat.snake_case
  have happly : ∀ q : Pairs,
      (k, []) ∈ applyParams false (toSnakeCaseParams p) q := by
    intro q
    rw [applyParams_false_eq _ _ hnd hsm]
    exact List.mem_append.mpr (Or.inr hmem)
  refine ⟨⟨?_, eq_not_mem_enc k⟩, ⟨?_, eq_not_mem_enc k⟩⟩
  · rw [appendUtm_query_eq url p false u hu hv]
    rw [(appendToQuery_parts u (toSnakeCaseParams p) false hscheme hhost hpathall).1]
    exact bareKey_mem_buildQueryString _ _ (happly _)
  · rw [appendUtm_fragment_eq url p false u hu hv]
    rw [(appendToFragment_parts u (toSnakeCaseParams p) false hscheme hui hhost hpathall).2]
    exact bareKey_mem_buildQueryString _ _ (happly _)

/-- Witness for the amended C5: injecting `utm_source=x` together with an
empty-valued `utm_term` renders `utm_term` as a bare key in both placements. -/
theorem emptyValue_bareKey_witness :
    (encodeURIComponent (("utm_term").data)
        ∈ splitOnC '&' (queryPart (appendUtmParameters (("https://example.com/").data)
            [((("utm_source").data), some (("x").data)),
              ((("utm_term").data), some [])] false false))
      ∧ '=' ∉ encodeURIComponent (("utm_term").data))
    ∧ (encodeURIComponent (("utm_term").data)
        ∈ splitOnC '&' (fragmentPart (appendUtmParameters (("https://example.com/").data)
            [((("utm_source").data), some (("x").data)),
              ((("utm_term").data), some [])] true false))
      ∧ '=' ∉ encodeURIComponent (("utm_term").data)) :=
  emptyValue_bareKey (("https://example.com/").data)
    [((("utm_source").data), some (("x").data)), ((("utm_term").data), some [])]
    (("utm_term").data)
    ⟨("https").data, none, ("example.com").data, ("/").data, [], []⟩
    (by decide) (by decide) (by decide)

end Utm

namespace Utm

/-! ### Claim C8 -/

lemma deleteKeys_not_mem (ks : List (List Char)) (ps : Pairs)
    (h : ∀ e ∈ ps, e.1 ∉ ks) : deleteKeys ks ps = ps := by
  rw [deleteKeys_eq_filter]
  apply List.filter_eq_self.mpr
  intro e he
  rw [Bool.not_eq_true', List.contains_eq_any_beq, List.any_eq_false]
  intro x hx
  simp only [beq_iff_eq]
  intro hxk
  exact h e he (hxk ▸ hx)

end Utm

namespace Utm

/-- The claim C8 as stated is false: with query placement, a fragment that
contains `=` is reparsed and reserialized even when it holds none of the
injected keys, so its original percent-encoding is not preserved
byte-for-byte (`%41` becomes `A`). -/
theorem frame_reencode_counterexample :
    fragmentPart (("https://example.com/#x=%41").data) = ("x=%41").data
      ∧ ("utm_source").data ∉ fragParamNames (("https://example.com/#x=%41").data)
      ∧ appendUtmParameters (("https://example.com/#x=%41").data)
          [((("utm_source").data), some (("x").data))] false false
        = ("https://example.com/?utm_source=x#x=A").data
      ∧ fragmentPart (("https://example.com/?utm_source=x#x=A").data) = ("x=A").data
      ∧ ("x=A").data ≠ ("x=%41").data := by
  refine ⟨by decide, by decide, by decide, by decide, by decide⟩

/-- Claim C8 (amended): when the non-target location holds none of the
injected keys, it is preserved byte-for-byte only if it is an opaque
fragment without `=`; a `=`-bearing fragment under query placement, and the
query under fragment placement, are preserved only up to re-encoding
(reparse then reserialize). -/
theorem frame_nonTarget (url : List Char) (p : ParamsO) (pe : Bool) (u : Url)
    (hu : parseUrl url = some u) (hv : hasValidUtmEntries p = true)
    (habsf : ∀ e ∈ parsePairs u.fragment, e.1 ∉ paramsNames (toSnakeCaseParams p))
    (habsq : ∀ e ∈ parsePairs u.query, e.1 ∉ paramsNames (toSnakeCaseParams p)) :
    (u.fragment.contains '=' = false
        → fragmentPart (appendUtmParameters url p false pe) = u.fragment)
    ∧ (u.fragment.contains '=' = true
        → fragmentPart (appendUtmParameters url p false pe)
            = serializePairs (parsePairs u.fragment))
    ∧ queryPart (appendUtmParameters url p true pe)
        = serializePairs (parsePairs u.query) := by
  obtain ⟨hscheme, hchecks, p', hpathshape⟩ := parseUrl_shape url u hu
  obtain ⟨_, hhost, huiok, hpathall, _, _, _⟩ := urlChecksOk_parts _ _ _ _ _ hchecks
  have hui : ∀ x, u.userinfo = some x → x.all userinfoOkC = true :=
    fun x hx => (huiok x hx).2
  refine ⟨?_, ?_, ?_⟩
  · intro hce
    rw [appendUtm_query_eq url p pe u hu hv]
    rw [(appendToQuery_parts u (toSnakeCaseParams p) pe hscheme hhost hpathall).2]
    unfold fragCleanup
    rw [hce]
    simp
  · intro hce
    rw [appendUtm_query_eq url p pe u hu hv]
    rw [(appendToQuery_parts u (toSnakeCaseParams p) pe hscheme hhost hpathall).2]
    have hfne : u.fragment ≠ [] := by
      intro hnil
      rw [hnil] at hce
      exact Bool.noConfusion hce
    unfold fragCleanup
    rw [hce, deleteKeys_not_mem _ _ habsf]
    simp [hfne]
  · rw [appendUtm_fragment_eq url p pe u hu hv]
    rw [(appendToFragment_parts u (toSnakeCaseParams p) pe hscheme hui hhost hpathall).1]
    rw [deleteKeys_not_mem _ _ habsq]

/-- Witness for the amended C8 at a URL with an opaque fragment and a
foreign query pair. -/
theorem frame_nonTarget_witness :
    fragmentPart (appendUtmParameters (("https://example.com/a?x=1#sec").data)
        [((("utm_source").data), some (("x").data))] false false) = ("sec").data
      ∧ queryPart (appendUtmParameters (("https://example.com/a?x=1#sec").data)
          [((("utm_source").data), some (("x").data))] true false)
        = serializePairs (parsePairs (("x=1").data)) :=
  ⟨(frame_nonTarget (("https://example.com/a?x=1#sec").data)
      [((("utm_source").data), some (("x").data))] false
      ⟨("https").data, none, ("example.com").data, ("/a").data,
        ("x=1").data, ("sec").data⟩
      (by decide) (by decide) (by decide) (by decide)).1 (by decide),
    (frame_nonTarget (("https://example.com/a?x=1#sec").data)
      [((("utm_source").data), some (("x").data))] false
      ⟨("https").data, none, ("example.com").data, ("/a").data,
        ("x=1").data, ("sec").data⟩
      (by decide) (by decide) (by decide) (by decide)).2.2⟩

end Utm

namespace Utm

/-! ### Claim C3 -/

lemma contains_eq_true_of_mem (ks : List (List Char)) (k : List Char) (h : k ∈ ks) :
    ks.contains k = true := by
  rw [List.contains_eq_any_beq]
  exact List.any_eq_true.mpr ⟨k, h, by simp⟩

lemma not_mem_names_deleteKeys (ks : List (List Char)) (qp : Pairs) (k : List Char)
    (hk : k ∈ ks) : k ∉ (deleteKeys ks qp).map (fun e => e.1) := by
  rw [deleteKeys_eq_filter]
  intro hm
  rcases List.mem_map.mp hm with ⟨e, he, hke⟩
  have hf := List.of_mem_filter he
  rw [Bool.not_eq_true'] at hf
  rw [contains_eq_true_of_mem ks e.1 (hke.symm ▸ hk)] at hf
  exact Bool.noConfusion hf

lemma fragCleanup_cases (u : Url) (ns : List (List Char)) :
    fragCleanup u ns = serializePairs (deleteKeys ns (parsePairs u.fragment))
      ∨ (fragCleanup u ns = u.fragment
          ∧ (u.fragment.contains '=' = false ∨ u.fragment = [])) := by
  unfold fragCleanup
  split
  · exact Or.inl rfl
  · rename_i hcond
    refine Or.inr ⟨rfl, ?_⟩
    rw [Bool.and_eq_true] at hcond
    by_cases hb : u.fragment.contains '=' = true
    · have hP : ¬(decide (u.fragment ≠ []) = true) := fun hd => hcond ⟨hd, hb⟩
      rw [decide_eq_true_eq] at hP
      exact Or.inr (not_not.mp hP)
    · exact Or.inl (Bool.not_eq_true _ ▸ Bool.eq_false_iff.mpr (fun hc => hb hc))

end Utm

namespace Utm

/-- Claim C3: the cross-location conflict rule.  With query placement every
injected key is absent from the fragment parameters of the result (a
`=`-bearing fragment has the keys deleted; an opaque fragment carries no
parameters), an opaque fragment is left untouched, and with fragment
placement every injected key is absent from the query parameters of the
result — so no injected key appears in both locations. -/
theorem crossLocation_conflict (url : List Char) (p : ParamsO) (pe : Bool) (u : Url)
    (hu : parseUrl url = some u) (hv : hasValidUtmEntries p = true) :
    (∀ k ∈ paramsNames (toSnakeCaseParams p),
        k ∉ fragParamNames (appendUtmParameters url p false pe))
    ∧ (u.fragment.contains '=' = false
        → fragmentPart (appendUtmParameters url p false pe) = u.fragment)
    ∧ (∀ k ∈ paramsNames (toSnakeCaseParams p),
        k ∉ queryParamNames (appendUtmParameters url p true pe)) := by
  obtain ⟨hscheme, hchecks, p', hpathshape⟩ := parseUrl_shape url u hu
  obtain ⟨_, hhost, huiok, hpathall, _, _, _⟩ := urlChecksOk_parts _ _ _ _ _ hchecks
  have hui : ∀ x, u.userinfo = some x → x.all userinfoOkC = true :=
    fun x hx => (huiok x hx).2
  have hfp : fragmentPart (appendUtmParameters url p false pe)
      = fragCleanup u (paramsNames (toSnakeCaseParams p)) := by
    rw [appendUtm_query_eq url p pe u hu hv]
    exact (appendToQuery_parts u (toSnakeCaseParams p) pe hscheme hhost hpathall).2
  refine ⟨?_, ?_, ?_⟩
  · intro k hk
    unfold fragParamNames
    rw [hfp]
    rcases fragCleanup_cases u (paramsNames (toSnakeCaseParams p)) with hcl | ⟨hcl, hrest⟩
    · rw [hcl]
      by_cases hc2 : (serializePairs (deleteKeys (paramsNames (toSnakeCaseParams p))
          (parsePairs u.fragment))).contains '=' = true
      · rw [if_pos hc2, parsePairs_serializePairs]
        exact not_mem_names_deleteKeys _ _ _ hk
      · rw [if_neg hc2]
        exact List.not_mem_nil k
    · rw [hcl]
      have hcf : ¬u.fragment.contains '=' = true := by
        rcases hrest with h | h
        · rw [h]; exact Bool.noConfusion
        · rw [h]; decide
      rw [if_neg hcf]
      exact List.not_mem_nil k
  · intro hce
    rw [hfp]
    unfold fragCleanup
    rw [hce]
    simp
  · intro k hk
    unfold queryParamNames
    rw [appendUtm_fragment_eq url p pe u hu hv]
    rw [(appendToFragment_parts u (toSnakeCaseParams p) pe hscheme hui hhost hpathall).1]
    rw [parsePairs_serializePairs]
    exact not_mem_names_deleteKeys _ _ _ hk

/-- Witness for C3: injecting `utm_source=x` into a URL that carries
`utm_source` in both its query and its `=`-bearing fragment. -/
theorem crossLocation_conflict_witness :
    ("utm_source").data ∉ fragParamNames
        (appendUtmParameters (("https://example.com/a?utm_source=old#utm_source=z&y=2").data)
          [((("utm_source").data), some (("x").data))] false false)
      ∧ ("utm_source").data ∉ queryParamNames
          (appendUtmParameters (("https://example.com/a?utm_source=old#utm_source=z&y=2").data)
            [((("utm_source").data), some (("x").data))] true false) :=
  ⟨(crossLocation_conflict (("https://example.com/a?utm_source=old#utm_source=z&y=2").data)
      [((("utm_source").data), some (("x").data))] false
      ⟨("https").data, none, ("example.com").data, ("/a").data,
        ("utm_source=old").data, ("utm_source=z&y=2").data⟩
      (by decide) (by decide)).1 _ (by decide),
    (crossLocation_conflict (("https://example.com/a?utm_source=old#utm_source=z&y=2").data)
      [((("utm_source").data), some (("x").data))] false
      ⟨("https").data, none, ("example.com").data, ("/a").data,
        ("utm_source=old").data, ("utm_source=z&y=2").data⟩
      (by decide) (by decide)).2.2 _ (by decide)⟩

end Utm

namespace Utm

/-! ### JSON string round trip -/

lemma hexVal_toHexDigitLower (m : Nat) (h : m < 16) : hexVal (toHexDigitLower m) = m := by
  interval_cases m <;> decide

lemma isHexDigit_toHexDigitLower (m : Nat) (h : m < 16) :
    isHexDigit (toHexDigitLower m) = true := by
  interval_cases m <;> decide

lemma parseJsonString_quote (t : List Char) : parseJsonString (quoteC :: t) = some ([], t) := by
  rw [parseJsonString.eq_def]
  split
  · rename_i heq
    exact absurd heq (by simp)
  · rename_i c2 r2 heq
    injection heq with hc hr
    subst hc
    subst hr
    rw [if_pos rfl]

lemma parseJsonString_plain (c : Char) (u : List Char) (h1 : ¬c = quoteC)
    (h2 : ¬c = backslashC) (h3 : ¬c.toNat < 32) :
    parseJsonString (c :: u) = (parseJsonString u).map (fun x => (c :: x.1, x.2)) := by
  rw [parseJsonString.eq_def]
  split
  · rename_i heq
    exact absurd heq (by simp)
  · rename_i c2 r2 heq
    injection heq with hc hr
    subst hc
    subst hr
    rw [if_neg h1, if_neg h2, if_neg h3]

lemma parseJsonString_backslash (e : Char) (u : List Char) :
    parseJsonString (backslashC :: e :: u)
      = if e = quoteC then (parseJsonString u).map (fun x => (quoteC :: x.1, x.2))
        else if e = backslashC then (parseJsonString u).map (fun x => (backslashC :: x.1, x.2))
        else if e = '/' then (parseJsonString u).map (fun x => ('/' :: x.1, x.2))
        else if e = 'b' then (parseJsonString u).map (fun x => (Char.ofNat 8 :: x.1, x.2))
        else if e = 'f' then (parseJsonString u).map (fun x => (Char.ofNat 12 :: x.1, x.2))
        else if e = 'n' then (parseJsonString u).map (fun x => (Char.ofNat 10 :: x.1, x.2))
        else if e = 'r' then (parseJsonString u).map (fun x => (Char.ofNat 13 :: x.1, x.2))
        else if e = 't' then (parseJsonString u).map (fun x => (Char.ofNat 9 :: x.1, x.2))
        else if e = 'u' then
          (match u with
           | h1 :: h2 :: h3 :: h4 :: r3 =>
             if isHexDigit h1 && isHexDigit h2 && isHexDigit h3 && isHexDigit h4 then
               (parseJsonString r3).map (fun x =>
                 (Char.ofNat (4096 * hexVal h1 + 256 * hexVal h2 + 16 * hexVal h3 + hexVal h4)
                   :: x.1, x.2))
             else none
           | _ => none)
        else none := by
  rw [parseJsonString.eq_def]
  split
  · rename_i heq
    exact absurd heq (by simp)
  · rename_i c2 r2 heq
    injection heq with hc hr
    subst hc
    subst hr
    rw [if_neg (by decide), if_pos rfl]

lemma parseJsonString_u (x y : Char) (u : List Char) (hx : isHexDigit x = true)
    (hy : isHexDigit y = true) :
    parseJsonString (backslashC :: 'u' :: '0' :: '0' :: x :: y :: u)
      = (parseJsonString u).map
          (fun t => (Char.ofNat (16 * hexVal x + hexVal y) :: t.1, t.2)) := by
  rw [parseJsonString_backslash]
  rw [if_neg (by decide), if_neg (by decide), if_neg (by decide), if_neg (by decide),
      if_neg (by decide), if_neg (by decide), if_neg (by decide), if_neg (by decide),
      if_pos rfl]
  show (if isHexDigit '0' && isHexDigit '0' && isHexDigit x && isHexDigit y then
      (parseJsonString u).map (fun t =>
        (Char.ofNat (4096 * hexVal '0' + 256 * hexVal '0' + 16 * hexVal x + hexVal y)
          :: t.1, t.2))
    else none) = _
  rw [if_pos (by rw [hx, hy]; decide)]
  rw [show 4096 * hexVal '0' + 256 * hexVal '0' + 16 * hexVal x + hexVal y
      = 16 * hexVal x + hexVal y from by
    rw [show hexVal '0' = 0 from rfl]
    omega]

lemma parseJsonString_escape (c : Char) (u : List Char) :
    parseJsonString (escapeJsonChar c ++ u)
      = (parseJsonString u).map (fun x => (c :: x.1, x.2)) := by
  unfold escapeJsonChar
  split
  · rename_i h; subst h
    simp only [List.cons_append, List.nil_append]
    rw [parseJsonString_backslash, if_pos rfl]
  split
  · rename_i h; subst h
    simp only [List.cons_append, List.nil_append]
    rw [parseJsonString_backslash, if_neg (by decide), if_pos rfl]
  split
  · rename_i h; subst h
    simp only [List.cons_append, List.nil_append]
    rw [parseJsonString_backslash, if_neg (by decide), if_neg (by decide),
      if_neg (by decide), if_pos rfl]
  split
  · rename_i h; subst h
    simp only [List.cons_append, List.nil_append]
    rw [parseJsonString_backslash, if_neg (by decide), if_neg (by decide),
      if_neg (by decide), if_neg (by decide), if_neg (by decide), if_neg (by decide),
      if_neg (by decide), if_pos rfl]
  split
  · rename_i h; subst h
    simp only [List.cons_append, List.nil_append]
    rw [parseJsonString_backslash, if_neg (by decide), if_neg (by decide),
      if_neg (by decide), if_neg (by decide), if_neg (by decide), if_pos rfl]
  split
  · rename_i h; subst h
    simp only [List.cons_append, List.nil_append]
    rw [parseJsonString_backslash, if_neg (by decide), if_neg (by decide),
      if_neg (by decide), if_neg (by decide), if_pos rfl]
  split
  · rename_i h; subst h
    simp only [List.cons_append, List.nil_append]
    rw [parseJsonString_backslash, if_neg (by decide), if_neg (by decide),
      if_neg (by decide), if_neg (by decide), if_neg (by decide), if_neg (by decide),
      if_pos rfl]
  split
  · rename_i h32
    have hdiv : c.toNat / 16 < 16 := by omega
    have hmod : c.toNat % 16 < 16 := by omega
    simp only [List.cons_append, List.nil_append]
    rw [parseJsonString_u _ _ u (isHexDigit_toHexDigitLower _ hdiv)
      (isHexDigit_toHexDigitLower _ hmod)]
    rw [hexVal_toHexDigitLower _ hdiv, hexVal_toHexDigitLower _ hmod]
    rw [Nat.div_add_mod]
    rw [Char.ofNat_toNat]
  · rename_i h1 h2 h3 h4 h5 h6 h7 h32
    rw [List.cons_append, List.nil_append]
    exact parseJsonString_plain c u h1 h2 h32

lemma parseJsonString_flatten (s t : List Char) :
    parseJsonString ((s.map escapeJsonChar).flatten ++ quoteC :: t) = some (s, t) := by
  induction s with
  | nil => simpa using parseJsonString_quote t
  | cons c cs ih =>
    simp only [List.map_cons, List.flatten_cons, List.append_assoc]
    rw [parseJsonString_escape, ih]
    rfl

end Utm

namespace Utm

/-! ### JSON object round trip -/

lemma jsonStringifyParams_eq (p : ParamsO) :
    jsonStringifyParams p
      = lbraceC :: (intercalateC ',' ((unwrapParams p).map segJ) ++ [rbraceC]) := rfl

lemma parseJsonValue_quote (f : Nat) (s t : List Char) :
    parseJsonValue (f + 1) (jsonQuote s ++ t) = some (.strJ s, t) := by
  have hshape : jsonQuote s ++ t
      = quoteC :: ((s.map escapeJsonChar).flatten ++ quoteC :: t) := by
    simp [jsonQuote]
  rw [hshape]
  simp +decide [parseJsonValue, skipWs, parseJsonString_flatten]

end Utm

namespace Utm

lemma segJ_cons (e : List Char × List Char) :
    segJ e = quoteC :: ((e.1.map escapeJsonChar).flatten ++ quoteC :: ':' :: jsonQuote e.2) := by
  simp [segJ, jsonQuote]

lemma skipWs_segs (l : Pairs) (e : List Char × List Char) :
    skipWs (intercalateC ',' ((e :: l).map segJ) ++ [rbraceC])
      = intercalateC ',' ((e :: l).map segJ) ++ [rbraceC] := by
  rw [List.map_cons]
  cases hr : l.map segJ with
  | nil =>
    rw [show intercalateC ',' [segJ e] = segJ e from rfl, segJ_cons, List.cons_append]
    rfl
  | cons s ss =>
    rw [intercalateC_cons _ _ _ (by simp), segJ_cons]
    simp only [List.cons_append]
    rfl

lemma parseJsonMembers_step (f : Nat) (k v T : List Char) (acc : List (List Char × Json)) :
    parseJsonMembers (f + 1 + 1)
        (quoteC :: ((k.map escapeJsonChar).flatten ++ quoteC :: ':' :: (jsonQuote v ++ T))) acc
      = (match skipWs T with
         | ',' :: r5 => parseJsonMembers (f + 1) (skipWs r5) (objInsert acc k (.strJ v))
         | e :: r5 =>
           if e = rbraceC then some (.objJ (objInsert acc k (.strJ v)), r5) else none
         | [] => none) := by
  simp +decide [parseJsonMembers, skipWs, parseJsonString_flatten, parseJsonValue_quote]

lemma parseJsonMembers_segs (l : Pairs) :
    ∀ (f : Nat) (acc : List (List Char × Json)), l ≠ [] → l.length < f →
      parseJsonMembers f (intercalateC ',' (l.map segJ) ++ [rbraceC]) acc
        = some (.objJ (l.foldl (fun a e => objInsert a e.1 (.strJ e.2)) acc), []) := by
  induction l with
  | nil =>
    intro f acc hl _
    exact absurd rfl hl
  | cons e rest ih =>
    intro f acc _ hf
    obtain ⟨f1, rfl⟩ : ∃ f1, f = f1 + 1 := ⟨f - 1, by omega⟩
    have hf1 : rest.length < f1 := by
      simp only [List.length_cons] at hf
      omega
    obtain ⟨f2, rfl⟩ : ∃ f2, f1 = f2 + 1 := ⟨f1 - 1, by omega⟩
    cases rest with
    | nil =>
      have hshape : intercalateC ',' ((e :: ([] : Pairs)).map segJ) ++ [rbraceC]
          = quoteC :: ((e.1.map escapeJsonChar).flatten
              ++ quoteC :: ':' :: (jsonQuote e.2 ++ [rbraceC])) := by
        simp [intercalateC, segJ, jsonQuote]
      rw [hshape, parseJsonMembers_step]
      rfl
    | cons e2 r2 =>
      have hshape : intercalateC ',' ((e :: e2 :: r2).map segJ) ++ [rbraceC]
          = quoteC :: ((e.1.map escapeJsonChar).flatten
              ++ quoteC :: ':' :: (jsonQuote e.2
                ++ ',' :: (intercalateC ',' ((e2 :: r2).map segJ) ++ [rbraceC]))) := by
        rw [List.map_cons, intercalateC_cons _ _ _ (by simp)]
        simp [segJ, jsonQuote]
      rw [hshape, parseJsonMembers_step]
      show parseJsonMembers (f2 + 1)
          (skipWs (intercalateC ',' ((e2 :: r2).map segJ) ++ [rbraceC]))
          (objInsert acc e.1 (.strJ e.2)) = _
      rw [skipWs_segs]
      rw [List.foldl_cons]
      exact ih (f2 + 1) _ (by simp) hf1

end Utm

namespace Utm

lemma segJ_head (l : Pairs) (e : List Char × List Char) :
    ∃ X, intercalateC ',' ((e :: l).map segJ) ++ [rbraceC] = quoteC :: X := by
  rw [List.map_cons]
  cases hr : l.map segJ with
  | nil =>
    refine ⟨(e.1.map escapeJsonChar).flatten ++ quoteC :: ':' :: jsonQuote e.2
      ++ [rbraceC], ?_⟩
    rw [show intercalateC ',' [segJ e] = segJ e from rfl, segJ_cons]
    simp
  | cons s ss =>
    refine ⟨(e.1.map escapeJsonChar).flatten ++ quoteC :: ':' :: jsonQuote e.2
      ++ ',' :: intercalateC ',' (s :: ss) ++ [rbraceC], ?_⟩
    rw [intercalateC_cons _ _ _ (by simp), segJ_cons]
    simp

lemma length_le_intercalateC (c : Char) (segs : List (List Char))
    (h : ∀ s ∈ segs, s ≠ []) : segs.length ≤ (intercalateC c segs).length := by
  induction segs with
  | nil => simp [intercalateC]
  | cons s r ih =>
    cases r with
    | nil =>
      rw [show intercalateC c [s] = s from rfl]
      simpa using List.length_pos.mpr (h s (List.mem_cons_self _ _))
    | cons t ts =>
      rw [intercalateC_cons _ _ _ (by simp)]
      simp only [List.length_cons, List.length_append]
      have h1 := ih (fun x hx => h x (List.mem_cons_of_mem _ hx))
      have h2 : 1 ≤ s.length := List.length_pos.mpr (h s (List.mem_cons_self _ _))
      simp only [List.length_cons] at h1
      omega

lemma parseJsonValue_stringify (sp : ParamsO) (f : Nat)
    (hf : (unwrapParams sp).length < f) :
    parseJsonValue (f + 1) (jsonStringifyParams sp)
      = some (.objJ ((unwrapParams sp).foldl
          (fun a e => objInsert a e.1 (.strJ e.2)) []), []) := by
  rw [jsonStringifyParams_eq]
  cases hun : unwrapParams sp with
  | nil =>
    simp +decide [parseJsonValue, skipWs, intercalateC]
  | cons E rest =>
    obtain ⟨X, hX⟩ := segJ_head rest E
    rw [hX]
    have hstep : parseJsonValue (f + 1) (lbraceC :: quoteC :: X)
        = parseJsonMembers f (quoteC :: X) [] := by
      simp +decide [parseJsonValue, skipWs]
    rw [hstep, ← hX]
    rw [parseJsonMembers_segs (E :: rest) f [] (by simp) (by
      rw [hun] at hf
      exact hf)]

lemma parseJson_stringify (sp : ParamsO) :
    parseJson (jsonStringifyParams sp)
      = some (.objJ ((unwrapParams sp).foldl
          (fun a e => objInsert a e.1 (.strJ e.2)) [])) := by
  have hlen : (unwrapParams sp).length < (jsonStringifyParams sp).length := by
    rw [jsonStringifyParams_eq]
    simp only [List.length_cons, List.length_append]
    have h1 : ((unwrapParams sp).map segJ).length
        ≤ (intercalateC ',' ((unwrapParams sp).map segJ)).length := by
      apply length_le_intercalateC
      intro s hs
      rcases List.mem_map.mp hs with ⟨a, _, rfl⟩
      rw [segJ_cons]
      simp
    simp only [List.length_map] at h1
    omega
  unfold parseJson
  rw [parseJsonValue_stringify sp _ hlen]
  rfl

lemma objInsert_not_mem_keys (acc : List (List Char × α)) (k : List Char) (v : α)
    (h : ∀ e ∈ acc, e.1 ≠ k) : objInsert acc k v = acc ++ [(k, v)] := by
  unfold objInsert
  rw [if_neg]
  intro hc
  rw [List.any_eq_true] at hc
  obtain ⟨x, hx, hxk⟩ := hc
  exact h x hx (by simpa using hxk)

lemma foldl_objInsert_map (l : Pairs) :
    ∀ acc : List (List Char × Json),
      (l.map (fun e => e.1)).Nodup →
      (∀ e ∈ l, ∀ a ∈ acc, a.1 ≠ e.1) →
      l.foldl (fun a e => objInsert a e.1 (.strJ e.2)) acc
        = acc ++ l.map (fun e => (e.1, Json.strJ e.2)) := by
  induction l with
  | nil =>
    intro acc _ _
    simp
  | cons e rest ih =>
    intro acc hnd hdisj
    rw [List.foldl_cons]
    rw [objInsert_not_mem_keys acc e.1 (Json.strJ e.2)
      (fun a ha => hdisj e (List.mem_cons_self _ _) a ha)]
    have hnd2 := List.nodup_cons.mp (by simpa using hnd :
      (e.1 :: rest.map (fun x => x.1)).Nodup)
    have hdisj2 : ∀ e2 ∈ rest, ∀ a ∈ acc ++ [(e.1, Json.strJ e.2)], a.1 ≠ e2.1 := by
      intro e2 he2 a ha
      rcases List.mem_append.mp ha with ha | ha
      · exact hdisj e2 (List.mem_cons_of_mem _ he2) a ha
      · rcases List.mem_singleton.mp ha with rfl
        intro hc
        have hm : e.1 ∈ rest.map (fun x => x.1) := by
          rw [show ((e.1, Json.strJ e.2) : List Char × Json).1 = e.1 from rfl] at hc
          rw [hc]
          exact List.mem_map.mpr ⟨e2, he2, rfl⟩
        exact hnd2.1 hm
    rw [ih (acc ++ [(e.1, Json.strJ e.2)]) hnd2.2 hdisj2]
    simp

end Utm

namespace Utm

/-! ### Keys of converted parameter sets -/

lemma unwrapParams_names (sp : ParamsO) (h : ∀ e ∈ sp, e.2 ≠ none) :
    (unwrapParams sp).map (fun e => e.1) = paramsNames sp := by
  induction sp with
  | nil => rfl
  | cons e r ih =>
    rcases e with ⟨k, ev⟩
    cases ev with
    | none => exact absurd rfl (h (k, none) (List.mem_cons_self _ _))
    | some v =>
      have ih2 := ih (fun x hx => h x (List.mem_cons_of_mem _ hx))
      rw [show unwrapParams ((k, some v) :: r) = (k, v) :: unwrapParams r from rfl]
      rw [List.map_cons, ih2]
      rfl

lemma unwrapParams_roundtrip (sp : ParamsO) (h : ∀ e ∈ sp, e.2 ≠ none) :
    (unwrapParams sp).map (fun e => (e.1, some e.2)) = sp := by
  induction sp with
  | nil => rfl
  | cons e r ih =>
    rcases e with ⟨k, ev⟩
    cases ev with
    | none => exact absurd rfl (h (k, none) (List.mem_cons_self _ _))
    | some v =>
      have ih2 := ih (fun x hx => h x (List.mem_cons_of_mem _ hx))
      rw [show unwrapParams ((k, some v) :: r) = (k, v) :: unwrapParams r from rfl]
      rw [List.map_cons, ih2]

lemma isPrefixL_iff (a b : List Char) : isPrefixL a b = true ↔ ∃ t, b = a ++ t := by
  induction a generalizing b with
  | nil =>
    constructor
    · intro _
      exact ⟨b, rfl⟩
    · intro _
      rfl
  | cons x xs ih =>
    cases b with
    | nil =>
      constructor
      · intro hc
        exact Bool.noConfusion hc
      · rintro ⟨t, ht⟩
        exact absurd ht (by simp)
    | cons y ys =>
      have hstep : isPrefixL (x :: xs) (y :: ys)
          = (decide (x = y) && isPrefixL xs ys) := rfl
      rw [hstep, Bool.and_eq_true, decide_eq_true_eq]
      constructor
      · rintro ⟨rfl, hp⟩
        obtain ⟨t, rfl⟩ := (ih ys).mp hp
        exact ⟨t, rfl⟩
      · rintro ⟨t, ht⟩
        injection ht with h1 h2
        subst h1
        exact ⟨rfl, (ih ys).mpr ⟨t, h2⟩⟩

lemma lookupL_mem_values (k v : List Char) (tbl : List (List Char × List Char))
    (h : lookupL k tbl = some v) : v ∈ tbl.map (fun e => e.2) := by
  induction tbl with
  | nil => exact Option.noConfusion h
  | cons e r ih =>
    have hstep : lookupL k (e :: r) = if e.1 = k then some e.2 else lookupL k r := rfl
    rw [hstep] at h
    by_cases hek : e.1 = k
    · rw [if_pos hek] at h
      injection h with h2
      rw [List.map_cons, h2]
      exact List.mem_cons_self _ _
    · rw [if_neg hek] at h
      exact List.mem_cons_of_mem _ (ih h)

lemma snake_values_ok : ∀ v ∈ CAMEL_TO_SNAKE.map (fun e => e.2),
    isSnakeCaseUtmKey v = true := by decide

lemma expandUpper_head_underscore (r : List Char) :
    expandUpper ('_' :: r) = '_' :: expandUpper r := by
  rw [expandUpper_cons]
  rw [if_neg (by decide)]

lemma camel_shape (k : List Char) (h : isCamelCaseUtmKey k = true) :
    ∃ c rest, k = 'u' :: 't' :: 'm' :: c :: rest ∧ isUpperAlpha c = true := by
  rw [isCamelCaseUtmKey.eq_def] at h
  split at h
  · rename_i c rest
    exact ⟨c, rest, rfl, h⟩
  · exact Bool.noConfusion h

lemma toSnakeCase_isUtm (k : List Char) (h : isUtmKey k = true) :
    isSnakeCaseUtmKey (toSnakeCase k) = true := by
  unfold toSnakeCase
  cases hlk : lookupL k CAMEL_TO_SNAKE with
  | some v => exact snake_values_ok v (lookupL_mem_values k v _ hlk)
  | none =>
    unfold isUtmKey at h
    rw [Bool.or_eq_true] at h
    rcases h with h | h
    · unfold isSnakeCaseUtmKey at h
      obtain ⟨t, rfl⟩ := (isPrefixL_iff _ _).mp h
      rw [if_pos (by
        rw [Bool.and_eq_true]
        constructor
        · rw [isPrefixL_iff]
          exact ⟨'_' :: t, rfl⟩
        · rw [decide_eq_true_eq]
          simp)]
      rw [show (("utm_").data ++ t).drop 3 = '_' :: t from rfl]
      rw [expandUpper_head_underscore]
      rw [isSnakeCaseUtmKey, isPrefixL_iff]
      refine ⟨(expandUpper t).map lowerC, ?_⟩
      simp only [List.map_cons]
      rw [show lowerC '_' = '_' from by decide]
      rfl
    · obtain ⟨c, rest, rfl, hup⟩ := camel_shape k h
      rw [if_pos (by
        rw [Bool.and_eq_true]
        refine ⟨(isPrefixL_iff _ _).mpr ⟨c :: rest, rfl⟩, ?_⟩
        rw [decide_eq_true_eq]
        simp)]
      rw [show ('u' :: 't' :: 'm' :: c :: rest).drop 3 = c :: rest from rfl]
      rw [expandUpper_cons, if_pos hup]
      rw [isSnakeCaseUtmKey, isPrefixL_iff]
      refine ⟨lowerC c :: (expandUpper rest).map lowerC, ?_⟩
      simp only [List.map_cons]
      rw [show lowerC '_' = '_' from by decide]
      rfl

end Utm

namespace Utm

lemma convert_foldl_keys (p : ParamsO) :
    ∀ acc : ParamsO,
      (∀ e ∈ p, isUtmKey e.1 = true) →
      (∀ k ∈ paramsNames acc, isSnakeCaseUtmKey k = true) →
      ∀ k ∈ paramsNames (p.foldl (convertStep .snake_case) acc),
        isSnakeCaseUtmKey k = true := by
  induction p with
  | nil =>
    intro acc _ hacc k hk
    exact hacc k hk
  | cons e r ih =>
    intro acc hall hacc k hk
    rw [List.foldl_cons] at hk
    refine ih _ (fun x hx => hall x (List.mem_cons_of_mem _ hx)) ?_ k hk
    intro x hx
    unfold convertStep at hx
    cases he : e.2 with
    | none =>
      simp only [he] at hx
      exact hacc x hx
    | some v =>
      simp only [he] at hx
      rcases (mem_names_objInsert acc _ (some v) x).mp hx with hx | hx
      · exact hacc x hx
      · rw [hx]
        exact toSnakeCase_isUtm e.1 (hall e (List.mem_cons_self _ _))

lemma convertParams_snake_keys (p : ParamsO) (hp : isValidUtmParameters p = true) :
    ∀ k ∈ paramsNames (convertParams p .snake_case), isSnakeCaseUtmKey k = true := by
  apply convert_foldl_keys
  · intro e he
    exact List.all_eq_true.mp hp e he
  · intro k hk
    exact absurd hk (List.not_mem_nil k)

lemma isValidStoredData_mapStr (L : Pairs)
    (hkeys : ∀ k ∈ L.map (fun e => e.1), isUtmKey k = true) :
    isValidStoredData (.objJ (L.map (fun e => (e.1, Json.strJ e.2)))) = true := by
  unfold isValidStoredData
  rw [List.all_eq_true]
  intro x hx
  rcases List.mem_map.mp hx with ⟨a, ha, rfl⟩
  have hk := hkeys a.1 (List.mem_map.mpr ⟨a, ha, rfl⟩)
  simp [hk]

lemma jsonToParams_mapStr (L : Pairs) :
    jsonToParams (.objJ (L.map (fun e => (e.1, Json.strJ e.2))))
      = L.map (fun e => (e.1, some e.2)) := by
  simp only [jsonToParams]
  rw [List.map_map]
  rfl

end Utm

namespace Utm

/-! ### Claim C2 -/

/-- The claim C2 as stated is false: a camelCase-convention key with an
embedded underscore (`utmA_b`) is converted through snake_case on store and
back on read, and the double conversion is not the identity conversion the
claim requires (`utmA_b` comes back as `utmAB`). -/
theorem storeGet_counterexample :
    isValidUtmParameters [((("utmA_b").data), some (("v").data))] = true
      ∧ getStoredUtmParameters DEFAULT_STORAGE_KEY (some KeyFormat.camelCase)
          (storeUtmParameters [((("utmA_b").data), some (("v").data))]
            DEFAULT_STORAGE_KEY KeyFormat.snake_case [])
        = some [((("utmAB").data), some (("v").data))]
      ∧ convertParams [((("utmA_b").data), some (("v").data))] KeyFormat.camelCase
        = [((("utmA_b").data), some (("v").data))]
      ∧ (some [((("utmAB").data), some (("v").data))]
          ≠ some [((("utmA_b").data), some (("v").data))]) := by
  refine ⟨by decide, by decide, by decide, by decide⟩

/-- Claim C2 (amended): reading back a stored non-empty valid parameter set
returns the set converted to snake_case (the store default) and then to the
requested format — a double conversion, not the single conversion of the
original set the claim states. -/
theorem storeGet_roundTrip (p : ParamsO) (slot : List Char) (f : KeyFormat)
    (store : Store) (hne : p ≠ []) (hval : isValidUtmParameters p = true) :
    getStoredUtmParameters slot (some f)
        (storeUtmParameters p slot KeyFormat.snake_case store)
      = some (convertParams (convertParams p KeyFormat.snake_case) f) := by
  have hsp_nodup := convertParams_nodup p KeyFormat.snake_case
  have hsp_some := convertParams_some p KeyFormat.snake_case
  unfold storeUtmParameters
  rw [if_neg (fun hc => hne (List.length_eq_zero.mp hc))]
  unfold getStoredUtmParameters
  simp only [lookupL_objInsert]
  simp only [parseJson_stringify]
  have hnames : (unwrapParams (convertParams p KeyFormat.snake_case)).map (fun e => e.1)
      = paramsNames (convertParams p KeyFormat.snake_case) :=
    unwrapParams_names _ hsp_some
  have hfold : (unwrapParams (convertParams p KeyFormat.snake_case)).foldl
        (fun a e => objInsert a e.1 (.strJ e.2)) []
      = (unwrapParams (convertParams p KeyFormat.snake_case)).map
          (fun e => (e.1, Json.strJ e.2)) := by
    rw [foldl_objInsert_map _ [] (by rw [hnames]; exact hsp_nodup)
      (fun e he a ha => absurd ha (List.not_mem_nil a))]
    rw [List.nil_append]
  rw [hfold]
  rw [if_pos (isValidStoredData_mapStr _ (by
    intro k hk
    rw [hnames] at hk
    have hs := convertParams_snake_keys p hval k hk
    unfold isUtmKey
    rw [hs]
    rfl))]
  rw [jsonToParams_mapStr]
  rw [unwrapParams_roundtrip _ hsp_some]

/-- Witness for the amended C2 at a standard key stored and read back in
camelCase. -/
theorem storeGet_roundTrip_witness :
    getStoredUtmParameters DEFAULT_STORAGE_KEY (some KeyFormat.camelCase)
        (storeUtmParameters [((("utm_source").data), some (("x").data))]
          DEFAULT_STORAGE_KEY KeyFormat.snake_case [])
      = some (convertParams
          (convertParams [((("utm_source").data), some (("x").data))]
            KeyFormat.snake_case)
          KeyFormat.camelCase) :=
  storeGet_roundTrip [((("utm_source").data), some (("x").data))]
    DEFAULT_STORAGE_KEY KeyFormat.camelCase [] (by decide) (by decide)

end Utm

namespace Utm

/-! ### Algebra for the idempotence of injection -/

lemma deleteKeys_append (ks : List (List Char)) (a b : Pairs) :
    deleteKeys ks (a ++ b) = deleteKeys ks a ++ deleteKeys ks b := by
  rw [deleteKeys_eq_filter, deleteKeys_eq_filter, deleteKeys_eq_filter, List.filter_append]

lemma deleteKeys_idem (ks : List (List Char)) (l : Pairs) :
    deleteKeys ks (deleteKeys ks l) = deleteKeys ks l := by
  rw [deleteKeys_eq_filter, deleteKeys_eq_filter, List.filter_filter]
  simp

lemma deleteKeys_all_mem (ks : List (List Char)) (l : Pairs)
    (h : ∀ e ∈ l, e.1 ∈ ks) : deleteKeys ks l = [] := by
  rw [deleteKeys_eq_filter]
  rw [List.filter_eq_nil_iff]
  intro e he
  rw [Bool.not_eq_true, Bool.not_eq_false']
  exact contains_eq_true_of_mem ks e.1 (h e he)

lemma serializePairs_ne_nil (l : Pairs) (h : l ≠ []) : serializePairs l ≠ [] := by
  cases l with
  | nil => exact absurd rfl h
  | cons e r =>
    unfold serializePairs
    rw [List.map_cons]
    cases hr : r.map (fun e => formEncode e.1 ++ '=' :: formEncode e.2) with
    | nil =>
      rw [show intercalateC '&' [formEncode e.1 ++ '=' :: formEncode e.2]
          = formEncode e.1 ++ '=' :: formEncode e.2 from rfl]
      exact serSeg_ne_nil e
    | cons s ss =>
      rw [intercalateC_cons _ _ _ (by simp)]
      intro hc
      rcases List.append_eq_nil.mp hc with ⟨h1, h2⟩
      exact List.cons_ne_nil _ _ h2

lemma contains_char_of_mem (s : List Char) (c : Char) (h : c ∈ s) :
    s.contains c = true := by
  rw [List.contains_eq_any_beq]
  exact List.any_eq_true.mpr ⟨c, h, by simp⟩

lemma applyParams_reparse (sp : ParamsO) (q0 : Pairs)
    (hnd : (paramsNames sp).Nodup) (hsome : ∀ e ∈ sp, e.2 ≠ none)
    (hq : ([], []) ∉ q0) :
    applyParams false sp (parsePairs (buildQueryString (applyParams false sp q0)))
      = applyParams false sp q0 := by
  rw [applyParams_false_eq sp q0 hnd hsome]
  rw [parsePairs_buildQueryString]
  rw [List.filter_append]
  have hdel_clean : (deleteKeys (paramsNames sp) q0).filter
      (fun e => !(decide (e.1 = []) && decide (e.2 = [])))
      = deleteKeys (paramsNames sp) q0 := by
    apply List.filter_eq_self.mpr
    intro e he
    rcases e with ⟨k, v⟩
    by_cases hk : k = []
    · by_cases hv2 : v = []
      · exfalso
        subst hk
        subst hv2
        rw [deleteKeys_eq_filter] at he
        exact hq (List.mem_of_mem_filter he)
      · simp [hv2]
    · simp [hk]
  rw [hdel_clean]
  rw [applyParams_false_eq sp _ hnd hsome]
  rw [deleteKeys_append, deleteKeys_idem]
  rw [deleteKeys_all_mem (paramsNames sp)
    ((unwrapParams sp).filter (fun e => !(decide (e.1 = []) && decide (e.2 = []))))
    (by
      intro e he
      have hw : e ∈ unwrapParams sp := List.mem_of_mem_filter he
      rw [← unwrapParams_names sp hsome]
      exact List.mem_map.mpr ⟨e, hw, rfl⟩)]
  rw [List.append_nil]

lemma fragCleanup_idem (u u1 : Url) (ns : List (List Char))
    (h : u1.fragment = fragCleanup u ns) : fragCleanup u1 ns = u1.fragment := by
  rcases fragCleanup_cases u ns with hcl | ⟨hcl, hrest⟩
  · unfold fragCleanup
    rw [h, hcl]
    by_cases hl : deleteKeys ns (parsePairs u.fragment) = []
    · rw [hl]
      rw [show serializePairs ([] : Pairs) = [] from rfl]
      simp
    · rw [if_pos (by
        rw [Bool.and_eq_true]
        constructor
        · rw [decide_eq_true_eq]
          exact serializePairs_ne_nil _ hl
        · exact contains_char_of_mem _ _ (eq_mem_serializePairs _ hl))]
      rw [parsePairs_serializePairs, deleteKeys_idem]
  · unfold fragCleanup
    rw [h, hcl]
    rcases hrest with hc | hc
    · rw [hc]
      simp
    · rw [hc]
      simp

end Utm

namespace Utm

lemma parseUrl_build_if (scheme : List Char) (ui : Option (List Char)) (host p' q f : List Char)
    (hscheme : scheme = ("https").data ∨ scheme = ("http").data)
    (hui : ∀ u, ui = some u → '/' ∉ u ∧ '@' ∉ u ∧ '#' ∉ u ∧ '?' ∉ u)
    (hh : '/' ∉ host ∧ '@' ∉ host ∧ '#' ∉ host ∧ '?' ∉ host)
    (hp : '#' ∉ p' ∧ '?' ∉ p')
    (hq : '#' ∉ q) :
    parseUrl (scheme ++ ("://").data ++ optUi ui ++ host ++ '/' :: p' ++ optQ q ++ optF f)
      = (if urlChecksOk ui host ('/' :: p') q f then
          some ⟨scheme, ui, host, '/' :: p', q, f⟩ else none) := by
  have hbase : ∀ c, c ∈ scheme ++ ("://").data ++ optUi ui ++ host ++ '/' :: p'
      → ¬c = '#' ∧ ¬c = '?' := by
    intro c hc
    rcases List.mem_append.mp hc with hc | hc
    · rcases List.mem_append.mp hc with hc | hc
      · rcases List.mem_append.mp hc with hc | hc
        · rcases List.mem_append.mp hc with hc | hc
          · rcases hscheme with rfl | rfl
            · constructor <;> (rintro rfl; revert hc; decide)
            · constructor <;> (rintro rfl; revert hc; decide)
          · constructor <;> (rintro rfl; revert hc; decide)
        · cases hu : ui with
          | none => rw [hu] at hc; exact absurd hc (by simp [optUi])
          | some u =>
            rw [hu] at hc
            obtain ⟨_, _, hu3, hu4⟩ := hui u hu
            rcases List.mem_append.mp (show c ∈ u ++ ['@'] from hc) with hx | hx
            · constructor <;> (rintro rfl; first | exact hu3 hx | exact hu4 hx)
            · rcases List.mem_singleton.mp hx with rfl
              constructor <;> decide
      · constructor <;> (rintro rfl; first | exact hh.2.2.1 hc | exact hh.2.2.2 hc)
    · rcases List.mem_cons.mp hc with rfl | hc
      · constructor <;> decide
      · constructor <;> (rintro rfl; first | exact hp.1 hc | exact hp.2 hc)
  have hbase_hash : '#' ∉ scheme ++ ("://").data ++ optUi ui ++ host ++ '/' :: p' :=
    fun hm => (hbase _ hm).1 rfl
  have hbase_q : '?' ∉ scheme ++ ("://").data ++ optUi ui ++ host ++ '/' :: p' :=
    fun hm => (hbase _ hm).2 rfl
  have hbh : '#' ∉ scheme ++ ("://").data ++ optUi ui ++ host ++ '/' :: p' ++ optQ q := by
    intro hm
    rcases List.mem_append.mp hm with hm | hm
    · exact hbase_hash hm
    · rcases mem_optQ _ _ hm with hm | hm
      · exact absurd hm (by decide)
      · exact hq hm
  have hsp1 : splitFirstC '#'
      (scheme ++ ("://").data ++ optUi ui ++ host ++ '/' :: p' ++ optQ q ++ optF f)
      = (scheme ++ ("://").data ++ optUi ui ++ host ++ '/' :: p' ++ optQ q,
          if f = [] then none else some f) := by
    by_cases hf : f = []
    · subst hf
      rw [optF_nil, List.append_nil, splitFirstC_not_mem _ _ hbh, if_pos rfl]
    · rw [show optF f = '#' :: f from by simp [optF, hf]]
      rw [splitFirstC_append _ _ _ hbh, if_neg hf]
  have hsp2 : splitFirstC '?' (scheme ++ ("://").data ++ optUi ui ++ host ++ '/' :: p' ++ optQ q)
      = (scheme ++ ("://").data ++ optUi ui ++ host ++ '/' :: p',
          if q = [] then none else some q) := by
    by_cases hqe : q = []
    · subst hqe
      rw [optQ_nil, List.append_nil, splitFirstC_not_mem _ _ hbase_q, if_pos rfl]
    · rw [show optQ q = '?' :: q from by simp [optQ, hqe]]
      rw [splitFirstC_append _ _ _ hbase_q, if_neg hqe]
  have hsch : schemeSplit (scheme ++ ("://").data ++ optUi ui ++ host ++ '/' :: p')
      = some (scheme, optUi ui ++ host ++ '/' :: p') := by
    rw [show scheme ++ ("://").data ++ optUi ui ++ host ++ '/' :: p'
        = scheme ++ ("://").data ++ (optUi ui ++ host ++ '/' :: p') from by
          simp [List.append_assoc]]
    rcases hscheme with rfl | rfl
    · exact schemeSplit_https _
    · exact schemeSplit_http _
  have hap := parseAuthPath_build ui host p'
    (fun u hu => ⟨(hui u hu).1, (hui u hu).2.1⟩) hh.1 hh.2.1
  have hgq : (if q = [] then (none : Option (List Char)) else some q).getD [] = q := by
    by_cases hqe : q = [] <;> simp [hqe]
  have hgf : (if f = [] then (none : Option (List Char)) else some f).getD [] = f := by
    by_cases hf : f = [] <;> simp [hf]
  unfold parseUrl
  simp only [hsp1, hsp2, hsch, hap, hgq, hgf]

end Utm

namespace Utm

lemma appendUtm_invalid (url : List Char) (p : ParamsO) (tf pe : Bool)
    (hv : hasValidUtmEntries p = false) :
    appendUtmParameters url p tf pe = url := by
  unfold appendUtmParameters
  rw [hv]
  rfl

lemma appendUtm_parsefail (url : List Char) (p : ParamsO) (tf pe : Bool)
    (hv : hasValidUtmEntries p = true) (hu : parseUrl url = none) :
    appendUtmParameters url p tf pe = url := by
  unfold appendUtmParameters
  simp [hv, hu]

end Utm

namespace Utm

/-! ### Claim C7 -/

/-- The claim C7 as stated is false: a URL whose query holds a fully empty
pair (`?=`) renders that pair as an empty segment on the first injection,
and the second injection's reparse drops the empty segment, changing the
URL again. -/
theorem appendIdem_counterexample :
    appendUtmParameters (("https://example.com/?=").data)
        [((("utm_source").data), some (("x").data))] false false
      = ("https://example.com/?&utm_source=x").data
    ∧ appendUtmParameters (("https://example.com/?&utm_source=x").data)
        [((("utm_source").data), some (("x").data))] false false
      = ("https://example.com/?utm_source=x").data
    ∧ appendUtmParameters (appendUtmParameters (("https://example.com/?=").data)
          [((("utm_source").data), some (("x").data))] false false)
        [((("utm_source").data), some (("x").data))] false false
      ≠ appendUtmParameters (("https://example.com/?=").data)
        [((("utm_source").data), some (("x").data))] false false := by
  refine ⟨by decide, by decide, by decide⟩

/-- Claim C7 (amended): injection is idempotent for a fixed placement and
`keepExisting=false` whenever the URL's own query and fragment hold no fully
empty pair (empty key and empty value). -/
theorem appendIdem (url : List Char) (p : ParamsO) (tf : Bool)
    (hclean : match parseUrl url with
      | some u => ([], []) ∉ parsePairs u.query ∧ ([], []) ∉ parsePairs u.fragment
      | none => True) :
    appendUtmParameters (appendUtmParameters url p tf false) p tf false
      = appendUtmParameters url p tf false := by
  by_cases hv : hasValidUtmEntries p = true
  case neg =>
    have hv2 : hasValidUtmEntries p = false := Bool.eq_false_iff.mpr hv
    rw [appendUtm_invalid _ _ _ _ hv2, appendUtm_invalid _ _ _ _ hv2]
  case pos =>
  cases hu : parseUrl url with
  | none =>
    rw [appendUtm_parsefail url p tf false hv hu]
    rw [appendUtm_parsefail url p tf false hv hu]
  | some u =>
    rw [hu] at hclean
    obtain ⟨hqclean, hfclean⟩ := hclean
    obtain ⟨hscheme, hchecks, p', hpath⟩ := parseUrl_shape url u hu
    obtain ⟨hhne, hhost, huiok, hpathall, hnds, hqok, hfok⟩ :=
      urlChecksOk_parts _ _ _ _ _ hchecks
    have hnd : (paramsNames (toSnakeCaseParams p)).Nodup :=
      convertParams_nodup p KeyFormat.snake_case
    have hsm : ∀ e ∈ toSnakeCaseParams p, e.2 ≠ none :=
      convertParams_some p KeyFormat.snake_case
    have hhostm := host_not_mem u.host hhost
    have hpathm := path_not_mem u.path hpathall
    have hp2 : '#' ∉ p' ∧ '?' ∉ p' := by
      constructor
      · intro hm
        exact hpathm.1 (hpath ▸ List.mem_cons_of_mem _ hm)
      · intro hm
        exact hpathm.2 (hpath ▸ List.mem_cons_of_mem _ hm)
    cases tf with
    | false =>
      have h1 := appendUtm_query_eq url p false u hu hv
      have hshape : appendToQuery u (toSnakeCaseParams p) false
          = u.scheme ++ ("://").data ++ optUi none ++ u.host ++ '/' :: p'
              ++ optQ (buildQueryString (applyParams false (toSnakeCaseParams p)
                  (parsePairs u.query)))
              ++ optF (fragCleanup u (paramsNames (toSnakeCaseParams p))) := by
        unfold appendToQuery
        rw [hpath]
        simp [optUi, List.append_assoc]
      have hparse1 := parseUrl_build_if u.scheme none u.host p'
        (buildQueryString (applyParams false (toSnakeCaseParams p) (parsePairs u.query)))
        (fragCleanup u (paramsNames (toSnakeCaseParams p)))
        hscheme (fun x hx => Option.noConfusion hx) hhostm hp2
        (hash_not_mem_buildQueryString _)
      rw [h1]
      by_cases hck : urlChecksOk none u.host ('/' :: p')
          (buildQueryString (applyParams false (toSnakeCaseParams p) (parsePairs u.query)))
          (fragCleanup u (paramsNames (toSnakeCaseParams p))) = true
      · have hp3 : parseUrl (appendToQuery u (toSnakeCaseParams p) false)
            = some ⟨u.scheme, none, u.host, '/' :: p',
                buildQueryString (applyParams false (toSnakeCaseParams p)
                  (parsePairs u.query)),
                fragCleanup u (paramsNames (toSnakeCaseParams p))⟩ := by
          rw [hshape, hparse1, if_pos hck]
        rw [appendUtm_query_eq _ p false _ hp3 hv]
        unfold appendToQuery
        dsimp only
        rw [applyParams_reparse (toSnakeCaseParams p) (parsePairs u.query) hnd hsm hqclean]
        rw [fragCleanup_idem u
          ⟨u.scheme, none, u.host, '/' :: p',
            buildQueryString (applyParams false (toSnakeCaseParams p) (parsePairs u.query)),
            fragCleanup u (paramsNames (toSnakeCaseParams p))⟩
          (paramsNames (toSnakeCaseParams p)) rfl]
        rw [hpath]
      · rw [appendUtm_parsefail _ p false false hv (by rw [hshape, hparse1, if_neg hck])]
    | true =>
      have h1 := appendUtm_fragment_eq url p false u hu hv
      have hui2 : ∀ x, u.userinfo = some x → '/' ∉ x ∧ '@' ∉ x ∧ '#' ∉ x ∧ '?' ∉ x :=
        fun x hx => userinfo_not_mem x (huiok x hx).2
      have hshape : appendToFragment u (toSnakeCaseParams p) false
          = u.scheme ++ ("://").data ++ optUi u.userinfo ++ u.host ++ '/' :: p'
              ++ optQ (serializePairs (deleteKeys (paramsNames (toSnakeCaseParams p))
                  (parsePairs u.query)))
              ++ optF (buildQueryString (applyParams false (toSnakeCaseParams p)
                  (parsePairs u.fragment))) := by
        unfold appendToFragment serializeUrl
        dsimp only
        rw [hpath]
      have hparse1 := parseUrl_build_if u.scheme u.userinfo u.host p'
        (serializePairs (deleteKeys (paramsNames (toSnakeCaseParams p)) (parsePairs u.query)))
        (buildQueryString (applyParams false (toSnakeCaseParams p) (parsePairs u.fragment)))
        hscheme hui2 hhostm hp2 (hash_not_mem_serializePairs _)
      rw [h1]
      by_cases hck : urlChecksOk u.userinfo u.host ('/' :: p')
          (serializePairs (deleteKeys (paramsNames (toSnakeCaseParams p)) (parsePairs u.query)))
          (buildQueryString (applyParams false (toSnakeCaseParams p)
            (parsePairs u.fragment))) = true
      · have hp3 : parseUrl (appendToFragment u (toSnakeCaseParams p) false)
            = some ⟨u.scheme, u.userinfo, u.host, '/' :: p',
                serializePairs (deleteKeys (paramsNames (toSnakeCaseParams p))
                  (parsePairs u.query)),
                buildQueryString (applyParams false (toSnakeCaseParams p)
                  (parsePairs u.fragment))⟩ := by
          rw [hshape, hparse1, if_pos hck]
        rw [appendUtm_fragment_eq _ p false _ hp3 hv]
        unfold appendToFragment serializeUrl
        dsimp only
        rw [parsePairs_serializePairs, deleteKeys_idem]
        rw [applyParams_reparse (toSnakeCaseParams p) (parsePairs u.fragment) hnd hsm hfclean]
        rw [hpath]
      · rw [appendUtm_parsefail _ p true false hv (by rw [hshape, hparse1, if_neg hck])]

/-- Witness for the amended C7 at a clean URL with a foreign query pair and
an opaque fragment. -/
theorem appendIdem_witness :
    appendUtmParameters
        (appendUtmParameters (("https://example.com/a?x=1#sec").data)
          [((("utm_campaign").data), some (("c").data))] false false)
        [((("utm_campaign").data), some (("c").data))] false false
      = appendUtmParameters (("https://example.com/a?x=1#sec").data)
        [((("utm_campaign").data), some (("c").data))] false false :=
  appendIdem (("https://example.com/a?x=1#sec").data)
    [((("utm_campaign").data), some (("c").data))] false (by
      rw [show parseUrl (("https://example.com/a?x=1#sec").data)
          = some ⟨("https").data, none, ("example.com").data, ("/a").data,
              ("x=1").data, ("sec").data⟩ from by decide]
      exact ⟨by decide, by decide⟩)

end Utm
